import Mathlib

set_option maxRecDepth 100000

/-!
# Verification of `fetch_md_images.py`

A shallow embedding of the Markdown image fetcher: the URL classifier,
the filename deriver (including a full SHA-1 implementation over `Nat`),
the downloader with its retry loop, the three regex-based syntax
rewriters, and the document processor.  Document text is modelled as
`List Char`, file contents as text or raw bytes, and the outside world
(filesystem, network, logs) as an explicit `World` state threaded
through the functions.  The network is an oracle mapping a URL and a
per-call attempt index to a response or an error.

Regular-expression matching is embedded by hand-translating each of the
four patterns of the source into a deterministic scanner whose
backtracking behaviour is derived from Python `re` semantics
(lazy/greedy quantifiers, `MULTILINE` anchors, `DOTALL`, `IGNORECASE`).
-/

namespace MdFetch

/-! ## Generic character and list helpers -/

/-- Python's `\s` character class (`re` on `str`): Unicode whitespace.
The code points listed are those `str.isspace` accepts. -/
def isPySpace (c : Char) : Bool :=
  c.toNat ∈ [9, 10, 11, 12, 13, 28, 29, 30, 31, 32, 133, 160, 5760,
    8192, 8193, 8194, 8195, 8196, 8197, 8198, 8199, 8200, 8201, 8202,
    8232, 8233, 8239, 8287, 12288]

/-- Python's `\w` character class, restricted to ASCII (the documents in
scope are ASCII; `re` additionally accepts non-ASCII letters). -/
def isWordChar (c : Char) : Bool :=
  c.isAlphanum || c = '_'

/-- `takeWhile` over an append stops inside the left part when every
left element satisfies the predicate and the first right element does
not. -/
theorem takeWhile_append_stop {p : Char → Bool} {xs : List Char} (ys : List Char)
    (h1 : ∀ c ∈ xs, p c) (h2 : ∀ y, ys.head? = some y → p y = false) :
    (xs ++ ys).takeWhile p = xs := by
  induction xs with
  | nil =>
    cases ys with
    | nil => rfl
    | cons y ys =>
      simp [List.takeWhile_cons, h2 y rfl]
  | cons x xs ih =>
    simp only [List.cons_append, List.takeWhile_cons, h1 x (by simp)]
    simpa using ih (fun c hc => h1 c (by simp [hc]))

/-- `dropWhile` counterpart of `takeWhile_append_stop`. -/
theorem dropWhile_append_stop {p : Char → Bool} {xs : List Char} (ys : List Char)
    (h1 : ∀ c ∈ xs, p c) (h2 : ∀ y, ys.head? = some y → p y = false) :
    (xs ++ ys).dropWhile p = ys := by
  induction xs with
  | nil =>
    cases ys with
    | nil => rfl
    | cons y ys =>
      simp [List.dropWhile_cons, h2 y rfl]
  | cons x xs ih =>
    simp only [List.cons_append, List.dropWhile_cons, h1 x (by simp)]
    exact ih (fun c hc => h1 c (by simp [hc]))

/-! ## UTF-8 encoding (used by `url.encode("utf-8")` and file sizes) -/

/-- The UTF-8 bytes of one character. -/
def utf8Char (c : Char) : List Nat :=
  if c.toNat < 128 then [c.toNat]
  else if c.toNat < 2048 then [192 + c.toNat / 64, 128 + c.toNat % 64]
  else if c.toNat < 65536 then
    [224 + c.toNat / 4096, 128 + (c.toNat / 64) % 64, 128 + c.toNat % 64]
  else
    [240 + c.toNat / 262144, 128 + (c.toNat / 4096) % 64, 128 + (c.toNat / 64) % 64,
      128 + c.toNat % 64]

/-- UTF-8 encoding of a character list. -/
def utf8Bytes (cs : List Char) : List Nat :=
  (cs.map utf8Char).flatten

theorem utf8Char_ne_nil (c : Char) : utf8Char c ≠ [] := by
  unfold utf8Char
  split <;> [skip; split <;> [skip; split]] <;> simp

theorem utf8Bytes_ne_nil {cs : List Char} (h : cs ≠ []) : utf8Bytes cs ≠ [] := by
  cases cs with
  | nil => exact absurd rfl h
  | cons c cs =>
    simp only [utf8Bytes, List.map_cons, List.flatten_cons, ne_eq, List.append_eq_nil,
      not_and]
    intro hc
    exact absurd hc (utf8Char_ne_nil c)

/-- Lossy UTF-8 decoding: invalid sequences become U+FFFD, as CPython's
`errors="replace"` does (grouping of invalid bytes approximated). -/
def utf8DecodeGo : Nat → List Nat → List Char
  | 0, _ => []
  | _ + 1, [] => []
  | f + 1, b :: r =>
    if b < 128 then
      Char.ofNat b :: utf8DecodeGo f r
    else if 194 ≤ b ∧ b ≤ 223 then
      match r with
      | b2 :: r2 =>
        if 128 ≤ b2 ∧ b2 ≤ 191 then
          Char.ofNat ((b - 192) * 64 + (b2 - 128)) :: utf8DecodeGo f r2
        else Char.ofNat 65533 :: utf8DecodeGo f r
      | [] => [Char.ofNat 65533]
    else if 224 ≤ b ∧ b ≤ 239 then
      match r with
      | b2 :: b3 :: r3 =>
        if (128 ≤ b2 ∧ b2 ≤ 191) ∧ (128 ≤ b3 ∧ b3 ≤ 191) ∧
            (b = 224 → 160 ≤ b2) ∧ (b = 237 → b2 ≤ 159) then
          Char.ofNat ((b - 224) * 4096 + (b2 - 128) * 64 + (b3 - 128)) ::
            utf8DecodeGo f r3
        else Char.ofNat 65533 :: utf8DecodeGo f r
      | _ => [Char.ofNat 65533]
    else if 240 ≤ b ∧ b ≤ 244 then
      match r with
      | b2 :: b3 :: b4 :: r4 =>
        if (128 ≤ b2 ∧ b2 ≤ 191) ∧ (128 ≤ b3 ∧ b3 ≤ 191) ∧ (128 ≤ b4 ∧ b4 ≤ 191) ∧
            (b = 240 → 144 ≤ b2) ∧ (b = 244 → b2 ≤ 143) then
          Char.ofNat ((b - 240) * 262144 + (b2 - 128) * 4096 + (b3 - 128) * 64 +
            (b4 - 128)) :: utf8DecodeGo f r4
        else Char.ofNat 65533 :: utf8DecodeGo f r
      | _ => [Char.ofNat 65533]
    else Char.ofNat 65533 :: utf8DecodeGo f r

/-- Lossy UTF-8 decoding of a byte list. -/
def utf8Decode (bs : List Nat) : List Char :=
  utf8DecodeGo bs.length bs

/-! ## SHA-1 (`hashlib.sha1`), over `Nat` with explicit `% 2^32` -/

/-- Truncation to a 32-bit word. -/
def w32 (n : Nat) : Nat := n % 4294967296

/-- 32-bit left rotation. -/
def rotl (b n : Nat) : Nat := w32 (n * 2 ^ b + n / 2 ^ (32 - b))

/-- Big-endian byte rendering of `n` on `k` bytes. -/
def beBytes (k n : Nat) : List Nat :=
  (List.range k).map (fun i => n / 2 ^ (8 * (k - 1 - i)) % 256)

/-- SHA-1 message padding. -/
def sha1Pad (m : List Nat) : List Nat :=
  let l := m.length
  m ++ [128] ++ List.replicate ((64 - (l + 9) % 64) % 64) 0 ++ beBytes 8 (l * 8)

/-- Split a list into chunks of `k` elements (`k > 0`; fuel-driven). -/
def chunksGo (k : Nat) : Nat → List Nat → List (List Nat)
  | 0, _ => []
  | _ + 1, [] => []
  | f + 1, l => l.take k :: chunksGo k f (l.drop k)

/-- Big-endian 32-bit words of four bytes each. -/
def word32OfBytes (bs : List Nat) : Nat :=
  bs.foldl (fun a b => a * 256 + b) 0

/-- The sixteen initial schedule words of one 64-byte block. -/
def sha1BlockWords (block : List Nat) : List Nat :=
  (chunksGo 4 block.length block).map word32OfBytes

/-- Extend the message schedule by `k` further words. -/
def sha1Extend (acc : List Nat) : Nat → List Nat
  | 0 => acc
  | k + 1 =>
    let n := acc.length
    let wi := rotl 1 (acc.getD (n - 3) 0 ^^^ acc.getD (n - 8) 0 ^^^
      acc.getD (n - 14) 0 ^^^ acc.getD (n - 16) 0)
    sha1Extend (acc ++ [wi]) k

/-- The SHA-1 round function. -/
def sha1F (i b c d : Nat) : Nat :=
  if i < 20 then (b &&& c) ||| ((4294967295 ^^^ b) &&& d)
  else if i < 40 then b ^^^ c ^^^ d
  else if i < 60 then (b &&& c) ||| (b &&& d) ||| (c &&& d)
  else b ^^^ c ^^^ d

/-- The SHA-1 round constants. -/
def sha1K (i : Nat) : Nat :=
  if i < 20 then 1518500249
  else if i < 40 then 1859775393
  else if i < 60 then 2400959708
  else 3395469782

/-- One 64-byte block of the SHA-1 compression function. -/
def sha1Block (h : List Nat) (block : List Nat) : List Nat :=
  let ws := sha1Extend (sha1BlockWords block) 64
  let s := ws.enum.foldl
    (fun (st : Nat × Nat × Nat × Nat × Nat) (iw : Nat × Nat) =>
      let (a, b, c, d, e) := st
      (w32 (rotl 5 a + sha1F iw.1 b c d + e + sha1K iw.1 + iw.2),
        a, rotl 30 b, c, d))
    (h.getD 0 0, h.getD 1 0, h.getD 2 0, h.getD 3 0, h.getD 4 0)
  [w32 (h.getD 0 0 + s.1), w32 (h.getD 1 0 + s.2.1), w32 (h.getD 2 0 + s.2.2.1),
    w32 (h.getD 3 0 + s.2.2.2.1), w32 (h.getD 4 0 + s.2.2.2.2)]

/-- The five 32-bit state words of the SHA-1 digest of a byte list. -/
def sha1Words (m : List Nat) : List Nat :=
  let padded := sha1Pad m
  (chunksGo 64 padded.length padded).foldl sha1Block
    [1732584193, 4023233417, 2562383102, 271733878, 3285377520]

/-- A hexadecimal digit character. -/
def hexDigit (n : Nat) : Char :=
  if n < 10 then Char.ofNat (48 + n) else Char.ofNat (87 + n)

/-- `k` lowercase hex digits of `n`, most significant first. -/
def hexN : Nat → Nat → List Char
  | 0, _ => []
  | k + 1, n => hexN k (n / 16) ++ [hexDigit (n % 16)]

/-- The forty-character hex digest, as `hexdigest()` renders it. -/
def sha1HexList (m : List Nat) : List Char :=
  ((sha1Words m).map (hexN 8)).flatten

theorem hexN_length (k n : Nat) : (hexN k n).length = k := by
  induction k generalizing n with
  | zero => rfl
  | succ k ih => simp [hexN, ih]

/-- Splitting a fixed-width hex rendering at a digit boundary. -/
theorem hexN_add (a b n : Nat) :
    hexN (a + b) n = hexN a (n / 16 ^ b) ++ hexN b (n % 16 ^ b) := by
  induction b generalizing n with
  | zero => simp [hexN]
  | succ b ih =>
    have h1 : a + (b + 1) = (a + b) + 1 := by omega
    rw [h1]
    show hexN (a + b) (n / 16) ++ [hexDigit (n % 16)] =
      hexN a (n / 16 ^ (b + 1)) ++ hexN (b + 1) (n % 16 ^ (b + 1))
    rw [ih (n / 16)]
    have h2 : n / 16 / 16 ^ b = n / 16 ^ (b + 1) := by
      rw [Nat.div_div_eq_div_mul, pow_succ']
    have h3 : n / 16 % 16 ^ b = n % 16 ^ (b + 1) / 16 := by
      rw [pow_succ', Nat.mod_mul_right_div_self]
    have h4 : n % 16 = n % 16 ^ (b + 1) % 16 := by
      rw [Nat.mod_mod_of_dvd]
      exact dvd_pow_self 16 (Nat.succ_ne_zero b)
    rw [h2, h3, h4]
    simp [hexN, List.append_assoc]

/-! ## `urllib.parse` (the parts the program uses) -/

/-- The characters CPython's `urlsplit` strips from a URL before
parsing (`_UNSAFE_URL_BYTES_TO_REMOVE`). -/
def isUnsafeUrlChar (c : Char) : Bool :=
  c = '\t' || c = '\n' || c = '\r'

/-- A WHATWG C0-control-or-space character
(`_WHATWG_C0_CONTROL_OR_SPACE`): code point at most `0x20`. -/
def isC0OrSpace (c : Char) : Bool :=
  c.toNat ≤ 32

/-- `urlsplit` preprocessing: `lstrip` the C0 controls and spaces from
the front, then remove every tab, CR and LF. -/
def urlPrep (url : List Char) : List Char :=
  (url.dropWhile isC0OrSpace).filter (fun c => !isUnsafeUrlChar c)

/-- A character allowed after the first one of a URL scheme. -/
def isSchemeChar (c : Char) : Bool :=
  c.isAlpha || c.isDigit || c = '+' || c = '-' || c = '.'

/-- A valid scheme: an ASCII letter followed by scheme characters. -/
def validScheme : List Char → Bool
  | [] => false
  | c :: r => c.isAlpha && r.all isSchemeChar

/-- Split off the scheme, as `urlsplit` does: the text before the first
`:` when it forms a valid scheme, lowercased. -/
def splitScheme (cs : List Char) : List Char × List Char :=
  match cs.findIdx? (· = ':') with
  | some i =>
    if 0 < i ∧ validScheme (cs.take i) then
      ((cs.take i).map Char.toLower, cs.drop (i + 1))
    else ([], cs)
  | none => ([], cs)

/-- The result of `urlparse` (only the components the program reads). -/
structure UrlParts where
  scheme : List Char
  netloc : List Char
  path : List Char
  deriving Repr, DecidableEq

/-- A netloc delimiter. -/
def isNetlocEnd (c : Char) : Bool :=
  c = '/' || c = '?' || c = '#'

/-- A path delimiter (query or fragment start). -/
def isPathEnd (c : Char) : Bool :=
  c = '?' || c = '#'

/-- The value of a hex digit character, if any. -/
def hexVal (c : Char) : Option Nat :=
  if '0' ≤ c ∧ c ≤ '9' then some (c.toNat - 48)
  else if 'a' ≤ c ∧ c ≤ 'f' then some (c.toNat - 87)
  else if 'A' ≤ c ∧ c ≤ 'F' then some (c.toNat - 55)
  else none

/-- Index of the last occurrence of `c`, if any. -/
def lastIdxOf (cs : List Char) (c : Char) : Option Nat :=
  match cs.reverse.findIdx? (· = c) with
  | some i => some (cs.length - 1 - i)
  | none => none

/-- The schemes of `uses_params`: for these, `urlparse` splits `;params`
off the last path segment. -/
def usesParams (scheme : List Char) : Bool :=
  scheme = [] || scheme = "ftp".data || scheme = "hdl".data ||
  scheme = "prospero".data || scheme = "http".data || scheme = "imap".data ||
  scheme = "https".data || scheme = "shttp".data || scheme = "rtsp".data ||
  scheme = "rtsps".data || scheme = "rtspu".data || scheme = "sip".data ||
  scheme = "sips".data || scheme = "mms".data || scheme = "sftp".data ||
  scheme = "tel".data

/-- `_splitparams`: cut at the first `;` at or after the last `/` (at
the first `;` anywhere when there is no `/`). -/
def splitParams (p : List Char) : List Char :=
  match lastIdxOf p '/' with
  | some k =>
    if (p.drop k).contains ';' then p.take k ++ (p.drop k).takeWhile (· ≠ ';')
    else p
  | none => p.takeWhile (· ≠ ';')

/-- The path component `urlparse` reports: `urlsplit`'s path, with the
params split off for a `uses_params` scheme. -/
def pyUrlPath (scheme p : List Char) : List Char :=
  if p.contains ';' && usesParams scheme then splitParams p else p

/-- The scheme, netloc and path `urlparse` computes when it does not
raise.  `pyUrlparse` below adds the raising paths; whenever it returns
`some`, the fields are exactly these. -/
def pyUrlparts (url : List Char) : UrlParts :=
  let cs := urlPrep url
  let sr := splitScheme cs
  match sr.2 with
  | '/' :: '/' :: rest =>
    ⟨sr.1, rest.takeWhile (fun c => !isNetlocEnd c),
      pyUrlPath sr.1
        ((rest.dropWhile (fun c => !isNetlocEnd c)).takeWhile
          (fun c => !isPathEnd c))⟩
  | other => ⟨sr.1, [], pyUrlPath sr.1 (other.takeWhile (fun c => !isPathEnd c))⟩

/-- `ipaddress` IPv4 octet: 1-3 ASCII digits, no leading zero except
`0` itself, value at most 255. -/
def validOctet (s : List Char) : Bool :=
  s ≠ [] && s.all Char.isDigit && s.length ≤ 3 &&
    (s = ['0'] || s.head? ≠ some '0') &&
    s.foldl (fun a c => a * 10 + (c.toNat - 48)) 0 ≤ 255

/-- A valid `IPv4Address` string: four dot-separated octets. -/
def validIPv4 (s : List Char) : Bool :=
  (s.splitOn '.').length = 4 && (s.splitOn '.').all validOctet

/-- `IPv6Address._parse_hextet`: 1-4 hex digits. -/
def validHextet (s : List Char) : Bool :=
  s ≠ [] && s.length ≤ 4 && s.all (fun c => (hexVal c).isSome)

/-- `IPv6Address._ip_int_from_string`, acting on the colon-split parts
after the IPv4-suffix expansion: at most one interior empty part (the
`::`), an empty first or last part only flanking it, at most seven
other parts beside a `::`, exactly eight parts without one, and every
non-empty part a hextet. -/
def validIPv6Parts (parts : List (List Char)) : Bool :=
  let n := parts.length
  if 9 < n then false
  else
    match (List.range n).filter
      (fun i => decide (0 < i) && decide (i + 1 < n) && parts.getD i ['x'] = []) with
    | [] => n = 8 && parts.all validHextet
    | [k] =>
      (parts.getD 0 ['x'] ≠ [] || k = 1) &&
      (parts.getD (n - 1) ['x'] ≠ [] || k = n - 2) &&
      ((if parts.getD 0 ['x'] = [] then k - 1 else k) +
        (if parts.getD (n - 1) ['x'] = [] then n - k - 2 else n - k - 1) ≤ 7) &&
      parts.all (fun p => p = [] || validHextet p)
    | _ => false

/-- The address part of a valid `IPv6Address` string: at least two
colons, an IPv4-style last part converted to two synthetic hextets. -/
def validIPv6Core (s : List Char) : Bool :=
  s ≠ [] &&
    (let parts0 := s.splitOn ':'
     decide (3 ≤ parts0.length) &&
       match parts0.getLast? with
       | none => false
       | some last =>
         if last.contains '.' then
           validIPv4 last && validIPv6Parts (parts0.dropLast ++ [['0'], ['0']])
         else validIPv6Parts parts0)

/-- A valid `IPv6Address` string: no `/`, an optional non-empty
`%scope` without a further `%`, and a valid address part. -/
def validIPv6 (s : List Char) : Bool :=
  !s.contains '/' &&
    (match s.dropWhile (· ≠ '%') with
     | [] => validIPv6Core (s.takeWhile (· ≠ '%'))
     | _ :: scope =>
       scope ≠ [] && !scope.contains '%' && validIPv6Core (s.takeWhile (· ≠ '%')))

/-- The IPvFuture check of `_check_bracketed_host`: the regex
`v[a-fA-F0-9]+[.].+` anchored at both ends (`.` not matching a
newline). -/
def validIPvFuture (s : List Char) : Bool :=
  match s with
  | 'v' :: r =>
    r.takeWhile (fun c => (hexVal c).isSome) ≠ [] &&
      (match r.dropWhile (fun c => (hexVal c).isSome) with
       | '.' :: t => t ≠ [] && !t.contains '\n'
       | _ => false)
  | _ => false

/-- `_check_bracketed_host`: a host starting with `v` must be an
IPvFuture literal; any other must be a valid IPv6 address (a valid
IPv4 address is rejected explicitly, and nothing else parses). -/
def validBracketHost (s : List Char) : Bool :=
  match s with
  | 'v' :: _ => validIPvFuture s
  | _ => validIPv6 s

/-- The characters whose NFKC normalization introduces one of
`/?#@:`; `_checknetloc` raises exactly when the (necessarily
non-ASCII) netloc contains one.  Enumerated over the whole code space
of the Unicode data CPython 3.11 ships; normalization of a longer
netloc cannot introduce these delimiters otherwise, as composition
only forms precomposed letters. -/
def isNfkcUnsafe (c : Char) : Bool :=
  c.toNat = 0x2047 || c.toNat = 0x2048 || c.toNat = 0x2049 ||
  c.toNat = 0x2100 || c.toNat = 0x2101 || c.toNat = 0x2105 ||
  c.toNat = 0x2106 || c.toNat = 0x2a74 || c.toNat = 0xfe13 ||
  c.toNat = 0xfe16 || c.toNat = 0xfe55 || c.toNat = 0xfe56 ||
  c.toNat = 0xfe5f || c.toNat = 0xfe6b || c.toNat = 0xff03 ||
  c.toNat = 0xff0f || c.toNat = 0xff1a || c.toNat = 0xff1f ||
  c.toNat = 0xff20

/-- Does `urlsplit` raise `ValueError` on this URL?  All checks live on
a `//`-netloc: an unmatched square bracket (`Invalid IPv6 URL`); a
matched pair whose bracketed host — the text after the first `[` up to
the next `]` — fails `_check_bracketed_host`; or a netloc whose NFKC
normalization introduces a URL delimiter. -/
def urlsplitRaises (url : List Char) : Bool :=
  match (splitScheme (urlPrep url)).2 with
  | '/' :: '/' :: rest =>
    let netloc := rest.takeWhile (fun c => !isNetlocEnd c)
    ((netloc.contains '[' != netloc.contains ']') ||
      (netloc.contains '[' && netloc.contains ']' &&
        !validBracketHost
          (((netloc.dropWhile (· ≠ '[')).drop 1).takeWhile (· ≠ ']'))) ||
      netloc.any isNfkcUnsafe)
  | _ => false

/-- `urllib.parse.urlparse`, restricted to scheme/netloc/path, with
its `ValueError` paths as `none`. -/
def pyUrlparse (url : List Char) : Option UrlParts :=
  if urlsplitRaises url then none else some (pyUrlparts url)

/-- `is_http_url` from the source: `urlparse` inside `try`, scheme in
`(http, https)`; a `ValueError` from `urlparse` (an invalid bracketed
netloc) lands in the `except` arm and yields `False`. -/
def is_http_url (url : List Char) : Bool :=
  match pyUrlparse url with
  | some p => p.scheme = "http".data || p.scheme = "https".data
  | none => false

/-- Percent-decoding to bytes: `%XX` becomes a byte, other characters
contribute their UTF-8 bytes. -/
def unquoteBytes : List Char → List Nat
  | [] => []
  | '%' :: a :: b :: r =>
    match hexVal a, hexVal b with
    | some ha, some hb => (ha * 16 + hb) :: unquoteBytes r
    | _, _ => utf8Char '%' ++ unquoteBytes (a :: b :: r)
  | c :: r => utf8Char c ++ unquoteBytes r

/-- `urllib.parse.unquote` (lossy decoding of the resulting bytes, as
`errors="replace"` gives; CPython groups undecodable runs slightly
differently, which no ASCII input can observe). -/
def pyUnquote (cs : List Char) : List Char :=
  utf8Decode (unquoteBytes cs)

/-! ## `os.path` helpers -/

/-- `os.path.basename` (POSIX): everything after the last `/`. -/
def pyBasename (cs : List Char) : List Char :=
  match (cs.reverse.takeWhile (· ≠ '/')) with
  | r => r.reverse

/-- `os.path.splitext` on a basename: split at the last dot unless all
characters before it are dots. -/
def pySplitext (cs : List Char) : List Char × List Char :=
  match lastIdxOf cs '.' with
  | none => (cs, [])
  | some i =>
    if (cs.take i).all (· = '.') then (cs, [])
    else (cs.take i, cs.drop i)

/-- `str.strip()` with no argument: strip whitespace at both ends. -/
def pyStrip (cs : List Char) : List Char :=
  ((cs.dropWhile isPySpace).reverse.dropWhile isPySpace).reverse

/-- The part of a content type before the first `;`. -/
def beforeSemi (cs : List Char) : List Char :=
  cs.takeWhile (· ≠ ';')

/-- A finite model of `mimetypes.guess_extension` (the platform table
restricted to the types exercised here; the argument is lowercased as
CPython does). -/
def pyGuessExtension (ct : List Char) : Option (List Char) :=
  let t := ct.map Char.toLower
  if t = "image/png".data then some ".png".data
  else if t = "image/jpeg".data then some ".jpg".data
  else if t = "image/gif".data then some ".gif".data
  else if t = "image/webp".data then some ".webp".data
  else if t = "image/svg+xml".data then some ".svg".data
  else if t = "image/bmp".data then some ".bmp".data
  else if t = "image/tiff".data then some ".tiff".data
  else if t = "image/x-icon".data then some ".ico".data
  else if t = "text/plain".data then some ".txt".data
  else if t = "text/html".data then some ".html".data
  else if t = "application/pdf".data then some ".pdf".data
  else if t = "application/octet-stream".data then some ".bin".data
  else none

/-! ## `safe_filename_from_url` -/

/-- The Python truthiness of an optional string (`None` and `""` are
falsy). -/
def strTruthy : Option (List Char) → Bool
  | none => false
  | some cs => cs ≠ []

/-- The 10-character fingerprint: `hashlib.sha1(url.encode()).hexdigest()[:10]`. -/
def urlFingerprint (url : List Char) : List Char :=
  (sha1HexList (utf8Bytes url)).take 10

/-- The stem and pre-fallback extension of `safe_filename_from_url`:
basename of the percent-decoded URL path, defaulted to `image`, split
into root and extension.  The path is read off `pyUrlparts`: the
program only reaches `safe_filename_from_url` for URLs accepted by
`is_http_url`, on which `pyUrlparse` succeeds with exactly these
parts (a raising URL inside `download` would make the attempt fail,
but no caller passes one). -/
def filenameStemExt (url : List Char) : List Char × List Char :=
  let name0 := pyBasename (pyUnquote (pyUrlparts url).path)
  let name := if name0 = [] then "image".data else name0
  pySplitext name

/-- The extension `safe_filename_from_url` ends with: the URL segment's
own extension, else one guessed from a truthy content type, else
`.bin`. -/
def filenameExt (url : List Char) (contentType : Option (List Char)) : List Char :=
  let se := filenameStemExt url
  let ext1 :=
    if se.2 = [] ∧ strTruthy contentType then
      match contentType with
      | some ct =>
        match pyGuessExtension (pyStrip (beforeSemi ct)) with
        | some e => e
        | none => se.2
      | none => se.2
    else se.2
  if ext1 = [] then ".bin".data else ext1

/-- `safe_filename_from_url(url, content_type)`: derive a name from the
URL, fill a missing extension from the content type (falling back to
`.bin`), and splice in the URL fingerprint as `root_fingerprint.ext`. -/
def safe_filename_from_url (url : List Char) (contentType : Option (List Char)) :
    List Char :=
  (filenameStemExt url).1 ++ "_".data ++ urlFingerprint url ++
    filenameExt url contentType

/-! ## Path component arithmetic (`Path.resolve`, `os.path.relpath`) -/

/-- Lexical normalization of an absolute path's components, as
`Path.resolve` does on a path with no symlinks: `.` disappears and
`..` pops. -/
def resolveComps (comps : List (List Char)) : List (List Char) :=
  comps.foldl
    (fun acc c =>
      if c = ".".data ∨ c = [] then acc
      else if c = "..".data then acc.dropLast
      else acc ++ [c])
    []

/-- Drop the common prefix of two component lists. -/
def dropCommon : List (List Char) → List (List Char) →
    List (List Char) × List (List Char)
  | a :: as, b :: bs => if a = b then dropCommon as bs else (a :: as, b :: bs)
  | as, bs => (as, bs)

/-- `os.path.relpath(path, start)` on absolute component lists: one
`..` per remaining `start` component, then the remaining `path`
components; `.` when both vanish. -/
def relpathComps (path start : List (List Char)) : List Char :=
  let pr := dropCommon path start
  let parts := pr.2.map (fun _ => "..".data) ++ pr.1
  if parts = [] then ".".data
  else (parts.intersperse "/".data).flatten

/-! ## The world state and the network oracle -/

/-- File contents: text written by `write_text` or raw bytes streamed by
`download` (the byte/character encoding boundary is kept abstract). -/
inductive FileData where
  | text (cs : List Char)
  | bin (b : List Nat)
  deriving Repr, DecidableEq

/-- `st_size` of a file. -/
def fsize : FileData → Nat
  | .text cs => (utf8Bytes cs).length
  | .bin b => b.length

/-- One `session.get` outcome: a network-level exception, or a response
with a status, a `Content-Type` header, the body chunks that
`iter_content` yields, and whether iteration then raises mid-stream. -/
inductive NetResult where
  | err
  | resp (status : Nat) (ctype : List Char) (chunks : List (List Nat))
      (midErr : Bool)

/-- The network oracle: response of the `attempt`-th `GET` of a
`download` call for a URL. -/
abbrev NetOracle := List Char → Nat → NetResult

/-- The observable world: the filesystem plus logs of `download`
invocations, `session.get` calls, `time.sleep` delays (in tenths of a
second), `stderr` warnings, and file writes. -/
structure World where
  files : List (List (List Char) × FileData)
  calls : List (List Char)
  gets : List (List Char)
  sleeps : List Nat
  warns : List (List Char)
  writes : List (List (List Char))
  deriving Repr, DecidableEq

/-- Association-list lookup for the file table. -/
def lookupFile : List (List (List Char) × FileData) → List (List Char) →
    Option FileData
  | [], _ => none
  | e :: t, p => if e.1 = p then some e.2 else lookupFile t p

/-- Read a file. -/
def getFile (w : World) (p : List (List Char)) : Option FileData :=
  lookupFile w.files p

/-- `p.exists() and p.stat().st_size > 0`. -/
def existsNonempty (w : World) (p : List (List Char)) : Bool :=
  match getFile w p with
  | some d => 0 < fsize d
  | none => false

/-- Replace-or-append update of the file table. -/
def putFileTable : List (List (List Char) × FileData) → List (List Char) →
    FileData → List (List (List Char) × FileData)
  | [], p, d => [(p, d)]
  | e :: t, p, d => if e.1 = p then (p, d) :: t else e :: putFileTable t p d

/-- Write a file and log the write. -/
def setFile (w : World) (p : List (List Char)) (d : FileData) : World :=
  { w with files := putFileTable w.files p d, writes := w.writes ++ [p] }

/-- The statuses the code singles out as retryable. -/
def retryableStatus (s : Nat) : Bool :=
  s = 429 || s = 500 || s = 502 || s = 503 || s = 504

/-- The statuses `raise_for_status` raises on. -/
def raisesForStatus (s : Nat) : Bool :=
  400 ≤ s && s < 600

/-! ## `download` -/

/-- The retry loop of `download`: `left` attempts remain, `idx` is the
0-based attempt number.  A failed attempt sleeps `0.7 * (idx + 1)`
seconds (recorded as `7 * (idx + 1)` tenths) when attempts remain, and
otherwise warns and gives up.  A successful response derives the target
name, short-circuits on an existing non-empty file, and otherwise
truncates and streams the non-empty chunks; a mid-stream error counts
as an attempt failure but keeps the bytes already written. -/
def dlGo (url : List Char) (outDir : List (List Char)) (net : NetOracle)
    (maxRetries : Nat) : Nat → Nat → World → Option (List (List Char)) × World
  | 0, _, w => (none, w)
  | left + 1, idx, w =>
    let w1 := { w with gets := w.gets ++ [url] }
    let failStep := fun (wf : World) =>
      if 0 < left then
        dlGo url outDir net maxRetries left (idx + 1)
          { wf with sleeps := wf.sleeps ++ [7 * (idx + 1)] }
      else (none, { wf with warns := wf.warns ++ [url] })
    match net url idx with
    | .err => failStep w1
    | .resp st ct chunks midErr =>
      if retryableStatus st then failStep w1
      else if raisesForStatus st then failStep w1
      else
        let fname := safe_filename_from_url url (some ct)
        let outPath := outDir ++ [fname]
        if existsNonempty w1 outPath then (some outPath, w1)
        else
          let w2 := setFile w1 outPath (.bin (chunks.filter (· ≠ [])).flatten)
          if midErr then failStep w2 else (some outPath, w2)

/-- `download(url, out_dir, session, max_retries, timeout)`.  The
`out_dir.mkdir` call only creates directories, which the model does not
track; the timeout has no observable effect in the model. -/
def download (url : List Char) (outDir : List (List Char)) (net : NetOracle)
    (maxRetries : Nat) (w : World) : Option (List (List Char)) × World :=
  dlGo url outDir net maxRetries (maxRetries + 1) 0
    { w with calls := w.calls ++ [url] }

/-! ## Regex matchers

Each of the source's four patterns is translated into a deterministic
scanner.  A successful match reports its captured groups and the length
`n` of the matched span (with a proof that a match is never empty,
which drives the tokenizers' fuel). -/

/-- A successful match: groups plus the matched span's length. -/
structure MRes (G : Type) where
  g : G
  n : Nat
  pos : 0 < n

/-- Groups of `MD_IMG_INLINE`: `![alt](url "title")`. -/
structure InlineG where
  alt : List Char
  url : List Char
  title : Option (List Char)
  deriving Repr, DecidableEq

/-- After the lazily grown URL of an inline image: first try the
optional ``\s+"title"`` group (greedy whitespace, forced quotes), then
a bare `)`.  Returns the optional title and the consumed length. -/
def inlineCont (rest : List Char) : Option (Option (List Char) × Nat) :=
  let w := (rest.takeWhile isPySpace).length
  let titleAttempt : Option (Option (List Char) × Nat) :=
    if 0 < w then
      match rest.dropWhile isPySpace with
      | '"' :: r2 =>
        let t := r2.takeWhile (· ≠ '"')
        match r2.dropWhile (· ≠ '"') with
        | '"' :: ')' :: _ => some (some t, w + 1 + t.length + 2)
        | _ => none
      | _ => none
    else none
  match titleAttempt with
  | some res => some res
  | none =>
    match rest with
    | ')' :: _ => some (none, 1)
    | _ => none

/-- The lazy `\S+?` loop: extend the URL one non-space character at a
time, stopping at the first point where the continuation matches.
Returns the URL length, the title, and the total consumed length. -/
def inlineUrlLoop : List Char → Nat → Option (Nat × Option (List Char) × Nat)
  | [], _ => none
  | c :: r, k =>
    if isPySpace c then none
    else
      match inlineCont r with
      | some tm => some (k + 1, tm.1, k + 1 + tm.2)
      | none => inlineUrlLoop r (k + 1)

/-- `MD_IMG_INLINE` at the current position:
`!\[(?P<alt>[^\]]*)\]\((?P<url>\S+?)(?:\s+"(?P<title>[^"]*)")?\)`. -/
def matchInline : List Char → Option (MRes InlineG)
  | '!' :: '[' :: r1 =>
    let alt := r1.takeWhile (· ≠ ']')
    match r1.dropWhile (· ≠ ']') with
    | ']' :: '(' :: r3 =>
      match inlineUrlLoop r3 0 with
      | some (ulen, title, total) =>
        some ⟨⟨alt, r3.take ulen, title⟩, 4 + alt.length + total, by omega⟩
      | none => none
    | _ => none
  | _ => none

/-- Groups of `MD_REF_DEF`: `[id]: url "title"`. -/
structure RefG where
  id : List Char
  url : List Char
  title : Option (List Char)
  deriving Repr, DecidableEq

/-- Index of the last newline of a list, if any. -/
def lastNewlineIdx (l : List Char) : Option Nat :=
  match l.reverse.findIdx? (· = '\n') with
  | some i => some (l.length - 1 - i)
  | none => none

/-- ``\s*$`` in `MULTILINE`: greedily consume whitespace up to the end
of the string, or up to the last newline of the whitespace run (the
`$` then sits just before that newline's successor).  Returns the
number of consumed characters. -/
def refTrailing (rest : List Char) : Option Nat :=
  let run := rest.takeWhile isPySpace
  if run.length = rest.length then some run.length
  else lastNewlineIdx run

/-- `MD_REF_DEF` at a line start:
`^\[(?P<id>[^\]]+)\]:\s*(?P<url>\S+)(?:\s+"(?P<title>[^"]*)")?\s*$`
(MULTILINE; the URL is greedy and cannot backtrack usefully). -/
def matchRefDef : List Char → Option (MRes RefG)
  | '[' :: r1 =>
    let i := r1.takeWhile (· ≠ ']')
    if i = [] then none
    else
      match r1.dropWhile (· ≠ ']') with
      | ']' :: ':' :: r2 =>
        let w1 := (r2.takeWhile isPySpace).length
        let r3 := r2.dropWhile isPySpace
        let url := r3.takeWhile (fun c => !isPySpace c)
        if url = [] then none
        else
          let r4 := r3.dropWhile (fun c => !isPySpace c)
          let w2 := (r4.takeWhile isPySpace).length
          let titleB : Option (Option (List Char) × Nat) :=
            if 0 < w2 then
              match r4.dropWhile isPySpace with
              | '"' :: r5 =>
                let t := r5.takeWhile (· ≠ '"')
                match r5.dropWhile (· ≠ '"') with
                | '"' :: r6 =>
                  match refTrailing r6 with
                  | some j => some (some t, w2 + 1 + t.length + 1 + j)
                  | none => none
                | _ => none
              | _ => none
            else none
          let tailRes : Option (Option (List Char) × Nat) :=
            match titleB with
            | some x => some x
            | none =>
              match refTrailing r4 with
              | some j => some (none, j)
              | none => none
          match tailRes with
          | some tm =>
            some ⟨⟨i, url, tm.1⟩, 1 + i.length + 2 + w1 + url.length + tm.2, by omega⟩
          | none => none
      | _ => none
  | _ => none

/-- Groups of `HTML_IMG`: the quote character and the `src` value. -/
structure HtmlG where
  q : Char
  src : List Char
  deriving Repr, DecidableEq

/-- Case-insensitive character comparison against a lowercase letter. -/
def lowEq (a b : Char) : Bool :=
  a.toLower = b

/-- `[^>]*?>` : length up to and including the first `>`. -/
def htmlAfterGt (l : List Char) : Option Nat :=
  match l.findIdx? (· = '>') with
  | some i => some (i + 1)
  | none => none

/-- The lazy `.+?\1[^>]*?>` tail (DOTALL): grow `src` to each next
occurrence of the quote, and accept the first one followed by a `>`
somewhere after.  Returns the `src` length and the consumed length. -/
def htmlSrcLoop (q : Char) : List Char → Nat → Option (Nat × Nat)
  | [], _ => none
  | _ :: r, s =>
    match r with
    | c2 :: r2 =>
      if c2 = q then
        match htmlAfterGt r2 with
        | some g => some (s + 1, s + 1 + 1 + g)
        | none => htmlSrcLoop q r (s + 1)
      else htmlSrcLoop q r (s + 1)
    | [] => none

/-- Does the text start with `src=`, case-insensitively? -/
def startsWithSrcEqCI : List Char → Bool
  | a :: b :: c :: '=' :: _ => lowEq a 's' && lowEq b 'r' && lowEq c 'c'
  | _ => false

/-- The lazy `[^>]*?\bsrc=(["'])` scan: advance over non-`>` characters
to the first word-boundary `src=` (case-insensitive) followed by a
quote whose inner tail also matches; `prev` is the preceding character
for the `\b` test. -/
def htmlFindSrc : List Char → Char → Option (HtmlG × Nat)
  | [], _ => none
  | c :: r, prev =>
    if c = '>' then none
    else
      let cand : Option (HtmlG × Nat) :=
        if !isWordChar prev && startsWithSrcEqCI (c :: r) then
          match (c :: r).drop 4 with
          | q :: r2 =>
            if q = '"' ∨ q = '\'' then
              match htmlSrcLoop q r2 0 with
              | some sl => some (⟨q, r2.take sl.1⟩, 4 + 1 + sl.2)
              | none => none
            else none
          | [] => none
        else none
      match cand with
      | some gm => some gm
      | none =>
        match htmlFindSrc r c with
        | some gm => some (gm.1, gm.2 + 1)
        | none => none

/-- `HTML_IMG` at the current position:
`<img\b[^>]*?\bsrc=(?P<q>["\'])(?P<src>.+?)\1[^>]*?>`
(IGNORECASE, DOTALL). -/
def matchHtml : List Char → Option (MRes HtmlG)
  | '<' :: c1 :: c2 :: c3 :: r1 =>
    if lowEq c1 'i' && lowEq c2 'm' && lowEq c3 'g' then
      match r1 with
      | [] => none
      | c4 :: _ =>
        if isWordChar c4 then none
        else
          match htmlFindSrc r1 c3 with
          | some gm => some ⟨gm.1, 4 + gm.2, by omega⟩
          | none => none
    else none
  | _ => none

/-! ## The replacement-side inner substitution of `process_html` -/

/-- ``.*?\1`` without DOTALL: distance to the first closing quote with
no newline before it. -/
def findCloseNoNL (q : Char) : List Char → Option Nat
  | [] => none
  | c :: r =>
    if c = q then some 0
    else if c = '\n' then none
    else
      match findCloseNoNL q r with
      | some i => some (i + 1)
      | none => none

/-- Does the text start with `src=` exactly (the inner pattern is
case-sensitive, unlike `HTML_IMG`)? -/
def startsWithSrcEqExact : List Char → Bool
  | 's' :: 'r' :: 'c' :: '=' :: _ => true
  | _ => false

/-- The candidate replacement at one position of the inner scan: a
case-sensitive `src=`, a quote, and a same-line closing quote. -/
def innerSrcCand (qOuter : Char) (rel : List Char) (l : List Char) :
    Option (List Char) :=
  if startsWithSrcEqExact l then
    match l.drop 4 with
    | q2 :: r2 =>
      if q2 = '"' ∨ q2 = '\'' then
        match findCloseNoNL q2 r2 with
        | some tlen =>
          some ("src=".data ++ qOuter :: rel ++ qOuter :: r2.drop (tlen + 1))
        | none => none
      else none
    | [] => none
  else none

/-- One-pass scan of ``re.sub(r'\bsrc=(["\']).*?\1', ..., tag, count=1)``:
replace the first case-sensitive `src=` attribute (closing quote on the
same line) with `src=` plus the outer quote around `rel`. -/
def innerSubGo (qOuter : Char) (rel : List Char) :
    List Char → Option Char → Option (List Char)
  | [], _ => none
  | c :: r, prev =>
    let boundaryOk : Bool :=
      match prev with
      | none => true
      | some pc => !isWordChar pc
    match (if boundaryOk then innerSrcCand qOuter rel (c :: r) else none) with
    | some res => some res
    | none =>
      match innerSubGo qOuter rel r (some c) with
      | some res => some (c :: res)
      | none => none

/-- The whole inner substitution; an unmatched tag is returned
unchanged (`re.sub` with no match). -/
def innerSrcSub (tag : List Char) (qOuter : Char) (rel : List Char) : List Char :=
  match innerSubGo qOuter rel tag none with
  | some res => res
  | none => tag

/-! ## Tokenizing a document into literal text and matches -/

/-- A piece of the scанned document: a literal character, or a match
with its raw span and groups. -/
inductive Piece (G : Type) where
  | lit (c : Char)
  | pat (raw : List Char) (g : G)

/-- Flatten pieces back to text. -/
def joinPieces {G : Type} : List (Piece G) → List Char
  | [] => []
  | .lit c :: ps => c :: joinPieces ps
  | .pat raw _ :: ps => raw ++ joinPieces ps

/-- `re.sub` scanning for `MD_IMG_INLINE`: try a match at every
position, consume it whole, otherwise emit one literal character. -/
def tokInline : Nat → List Char → List (Piece InlineG)
  | 0, cs => cs.map .lit
  | _ + 1, [] => []
  | f + 1, c :: cs =>
    match matchInline (c :: cs) with
    | some r => .pat ((c :: cs).take r.n) r.g :: tokInline f ((c :: cs).drop r.n)
    | none => .lit c :: tokInline f cs

/-- `re.sub` scanning for `MD_REF_DEF`: like `tokInline`, but a match
may only start where `^` holds (start of text or just after a
newline). -/
def tokRef : Nat → Bool → List Char → List (Piece RefG)
  | 0, _, cs => cs.map .lit
  | _ + 1, _, [] => []
  | f + 1, atStart, c :: cs =>
    match (if atStart then matchRefDef (c :: cs) else none) with
    | some r =>
      .pat ((c :: cs).take r.n) r.g ::
        tokRef f (((c :: cs).take r.n).getLast? = some '\n') ((c :: cs).drop r.n)
    | none => .lit c :: tokRef f (c = '\n') cs

/-- `re.sub` scanning for `HTML_IMG`. -/
def tokHtml : Nat → List Char → List (Piece HtmlG)
  | 0, cs => cs.map .lit
  | _ + 1, [] => []
  | f + 1, c :: cs =>
    match matchHtml (c :: cs) with
    | some r => .pat ((c :: cs).take r.n) r.g :: tokHtml f ((c :: cs).drop r.n)
    | none => .lit c :: tokHtml f cs

/-! ## The three rewriters -/

/-- The per-document URL → relative-path cache. -/
abbrev Cache := List (List Char × List Char)

/-- Cache lookup (`url in cache` / `cache[url]`). -/
def cacheLookup (c : Cache) (url : List Char) : Option (List Char) :=
  match c.find? (fun e => e.1 = url) with
  | some e => some e.2
  | none => none

/-- The context a rewriter closes over: output directory, the
document's directory, and the network oracle. -/
structure PassCtx where
  outDir : List (List Char)
  base : List (List Char)
  net : NetOracle

/-- The shared cache-or-fetch step of all three `_repl` closures: a
cached URL is substituted directly; otherwise `download` (with its
default `max_retries = 2`) runs, a success computes
`os.path.relpath(saved, md_base_dir)` and fills the cache, a failure
leaves the cache alone. -/
def resolveUrl (ctx : PassCtx) (url : List Char) (cache : Cache) (w : World) :
    Option (List Char) × Cache × World :=
  match cacheLookup cache url with
  | some rel => (some rel, cache, w)
  | none =>
    match download url ctx.outDir ctx.net 2 w with
    | (none, w') => (none, cache, w')
    | (some saved, w') =>
      let rel := relpathComps saved ctx.base
      (some rel, cache ++ [(url, rel)], w')

/-- `_repl` of `process_inline`: non-remote and failed matches are
emitted verbatim; otherwise the Markdown syntax is rebuilt around the
local path, with the title kept only when truthy. -/
def rendInline (ctx : PassCtx) (raw : List Char) (g : InlineG) (cache : Cache)
    (w : World) : List Char × Cache × World :=
  if !is_http_url g.url then (raw, cache, w)
  else
    match resolveUrl ctx g.url cache w with
    | (none, c', w') => (raw, c', w')
    | (some rel, c', w') =>
      ("![".data ++ g.alt ++ "](".data ++ rel ++
        (match g.title with
         | some t => if t ≠ [] then " \"".data ++ t ++ "\"".data else []
         | none => []) ++ ")".data, c', w')

/-- `_repl_def` of `process_ref`: same policy on the definition line. -/
def rendRef (ctx : PassCtx) (raw : List Char) (g : RefG) (cache : Cache)
    (w : World) : List Char × Cache × World :=
  if !is_http_url g.url then (raw, cache, w)
  else
    match resolveUrl ctx g.url cache w with
    | (none, c', w') => (raw, c', w')
    | (some rel, c', w') =>
      ("[".data ++ g.id ++ "]: ".data ++ rel ++
        (match g.title with
         | some t => if t ≠ [] then " \"".data ++ t ++ "\"".data else []
         | none => []), c', w')

/-- `_repl` of `process_html`: the matched tag is re-emitted with the
inner `src=` substitution applied to it. -/
def rendHtml (ctx : PassCtx) (raw : List Char) (g : HtmlG) (cache : Cache)
    (w : World) : List Char × Cache × World :=
  if !is_http_url g.src then (raw, cache, w)
  else
    match resolveUrl ctx g.src cache w with
    | (none, c', w') => (raw, c', w')
    | (some rel, c', w') => (innerSrcSub raw g.q rel, c', w')

/-- Substitute every piece in order, threading cache and world
left-to-right as `re.sub` invokes the replacement callback. -/
def renderPieces {G : Type}
    (rend : List Char → G → Cache → World → List Char × Cache × World) :
    List (Piece G) → Cache → World → List Char × Cache × World
  | [], c, w => ([], c, w)
  | .lit ch :: ps, c, w =>
    let r := renderPieces rend ps c w
    (ch :: r.1, r.2)
  | .pat raw g :: ps, c, w =>
    let r1 := rend raw g c w
    let r2 := renderPieces rend ps r1.2.1 r1.2.2
    (r1.1 ++ r2.1, r2.2)

/-- `process_inline(text, out_dir, session, cache, md_base_dir)`. -/
def process_inline (text : List Char) (ctx : PassCtx) (cache : Cache) (w : World) :
    List Char × Cache × World :=
  renderPieces (rendInline ctx) (tokInline text.length text) cache w

/-- `process_ref(text, out_dir, session, cache, md_base_dir)` (the
`parse_ref_defs` call it makes is effect-free and its result unused). -/
def process_ref (text : List Char) (ctx : PassCtx) (cache : Cache) (w : World) :
    List Char × Cache × World :=
  renderPieces (rendRef ctx) (tokRef text.length true text) cache w

/-- `process_html(text, out_dir, session, cache, md_base_dir)`. -/
def process_html (text : List Char) (ctx : PassCtx) (cache : Cache) (w : World) :
    List Char × Cache × World :=
  renderPieces (rendHtml ctx) (tokHtml text.length text) cache w

/-- `parse_ref_defs`: the id → (url, title) mapping of all definition
lines (computed but unused by `process_ref`). -/
def parse_ref_defs (text : List Char) : List (List Char × List Char × Option (List Char)) :=
  (tokRef text.length true text).foldr
    (fun p acc =>
      match p with
      | .pat _ g => (g.id, g.url, g.title) :: acc
      | .lit _ => acc)
    []

/-! ## `process_md_file` -/

/-- The `--out-dir` argument: an absolute or a relative path. -/
inductive OutDirArg where
  | abs (p : List (List Char))
  | rel (p : List (List Char))

/-- `process_md_file(md_path, out_dir, overwrite, session)`: read the
text, resolve a relative output directory against the document's
directory, run the three rewriters over one fresh cache, and write the
result to the original path (overwrite) or to the path with
`.converted` appended (`with_suffix(md_path.suffix + ".converted")`
appends the literal suffix).  An unreadable document propagates as
`none` (the driver catches the exception). -/
def process_md_file (mdDir : List (List Char)) (mdName : List Char)
    (outArg : OutDirArg) (overwrite : Bool) (net : NetOracle) (w : World) :
    Option (List (List Char)) × World :=
  let mdKey := mdDir ++ [mdName]
  match getFile w mdKey with
  | some (.text text) =>
    let outDir :=
      match outArg with
      | .abs p => p
      | .rel p => resolveComps (mdDir ++ p)
    let ctx : PassCtx := ⟨outDir, resolveComps mdDir, net⟩
    let r1 := process_inline text ctx [] w
    let r2 := process_ref r1.1 ctx r1.2.1 r1.2.2
    let r3 := process_html r2.1 ctx r2.2.1 r2.2.2
    let outKey := if overwrite then mdKey else mdDir ++ [mdName ++ ".converted".data]
    (some outKey, setFile r3.2.2 outKey (.text r3.1))
  | _ => (none, w)

/-! ## Basic world lemmas -/

theorem lookupFile_put_same (t : List (List (List Char) × FileData))
    (p : List (List Char)) (d : FileData) :
    lookupFile (putFileTable t p d) p = some d := by
  induction t with
  | nil => simp [putFileTable, lookupFile]
  | cons e t ih =>
    by_cases h : e.1 = p
    · simp [putFileTable, lookupFile, h]
    · simp [putFileTable, lookupFile, h, ih]

theorem lookupFile_put_other (t : List (List (List Char) × FileData))
    (p q : List (List Char)) (d : FileData) (h : q ≠ p) :
    lookupFile (putFileTable t p d) q = lookupFile t q := by
  induction t with
  | nil => simp [putFileTable, lookupFile, fun hh => h hh.symm ∘ Eq.symm, h.symm]
  | cons e t ih =>
    by_cases he : e.1 = p
    · simp [putFileTable, lookupFile, he, h.symm]
    · simp only [putFileTable, he, if_false, lookupFile]
      by_cases hq : e.1 = q <;> simp [hq, ih]

theorem putFileTable_same_value (t : List (List (List Char) × FileData))
    (p : List (List Char)) (d : FileData) (h : lookupFile t p = some d) :
    putFileTable t p d = t := by
  induction t with
  | nil => simp [lookupFile] at h
  | cons e t ih =>
    by_cases he : e.1 = p
    · simp only [lookupFile, he, if_true, Option.some.injEq] at h
      simp only [putFileTable, he, if_true]
      rw [← h, ← he]
    · simp only [lookupFile, he, if_false] at h
      simp [putFileTable, he, ih h]

theorem getFile_setFile_same (w : World) (p : List (List Char)) (d : FileData) :
    getFile (setFile w p d) p = some d := by
  simp [getFile, setFile, lookupFile_put_same]

theorem getFile_setFile_other (w : World) (p q : List (List Char)) (d : FileData)
    (h : q ≠ p) : getFile (setFile w p d) q = getFile w q := by
  simp [getFile, setFile, lookupFile_put_other _ _ _ _ h]

/-! ## Tokenizers flatten back to the original text -/

theorem joinPieces_map_lit {G : Type} (cs : List Char) :
    joinPieces (cs.map (Piece.lit (G := G))) = cs := by
  induction cs with
  | nil => rfl
  | cons c cs ih => simp [joinPieces, ih]

theorem joinPieces_tokInline (f : Nat) (cs : List Char) :
    joinPieces (tokInline f cs) = cs := by
  induction f generalizing cs with
  | zero => exact joinPieces_map_lit cs
  | succ f ih =>
    cases cs with
    | nil => rfl
    | cons c cs =>
      simp only [tokInline]
      cases matchInline (c :: cs) with
      | none => simp [joinPieces, ih cs]
      | some r => simp [joinPieces, ih, List.take_append_drop]

theorem joinPieces_tokRef (f : Nat) (st : Bool) (cs : List Char) :
    joinPieces (tokRef f st cs) = cs := by
  induction f generalizing st cs with
  | zero => exact joinPieces_map_lit cs
  | succ f ih =>
    cases cs with
    | nil => rfl
    | cons c cs =>
      simp only [tokRef]
      cases hm : (if st then matchRefDef (c :: cs) else none) with
      | none => simp [joinPieces, ih]
      | some r => simp [joinPieces, ih, List.take_append_drop]

theorem joinPieces_tokHtml (f : Nat) (cs : List Char) :
    joinPieces (tokHtml f cs) = cs := by
  induction f generalizing cs with
  | zero => exact joinPieces_map_lit cs
  | succ f ih =>
    cases cs with
    | nil => rfl
    | cons c cs =>
      simp only [tokHtml]
      cases matchHtml (c :: cs) with
      | none => simp [joinPieces, ih cs]
      | some r => simp [joinPieces, ih, List.take_append_drop]

/-! ## A pass whose every match is left verbatim is the identity -/

theorem renderPieces_id {G : Type}
    (rend : List Char → G → Cache → World → List Char × Cache × World)
    (ps : List (Piece G)) (c : Cache) (w : World)
    (h : ∀ raw g, Piece.pat raw g ∈ ps → ∀ c' w', rend raw g c' w' = (raw, c', w')) :
    renderPieces rend ps c w = (joinPieces ps, c, w) := by
  induction ps generalizing c w with
  | nil => rfl
  | cons p ps ih =>
    cases p with
    | lit ch =>
      simp only [renderPieces, joinPieces]
      rw [ih c w (fun raw g hm => h raw g (by simp [hm]))]
    | pat raw g =>
      simp only [renderPieces, joinPieces]
      rw [h raw g (by simp), ih c w (fun raw' g' hm => h raw' g' (by simp [hm]))]

theorem rendInline_not_http (ctx : PassCtx) (raw : List Char) (g : InlineG)
    (c : Cache) (w : World) (h : is_http_url g.url = false) :
    rendInline ctx raw g c w = (raw, c, w) := by
  simp [rendInline, h]

theorem rendRef_not_http (ctx : PassCtx) (raw : List Char) (g : RefG)
    (c : Cache) (w : World) (h : is_http_url g.url = false) :
    rendRef ctx raw g c w = (raw, c, w) := by
  simp [rendRef, h]

theorem rendHtml_not_http (ctx : PassCtx) (raw : List Char) (g : HtmlG)
    (c : Cache) (w : World) (h : is_http_url g.src = false) :
    rendHtml ctx raw g c w = (raw, c, w) := by
  simp [rendHtml, h]

/-- No match of `MD_IMG_INLINE` in `text` has a remote URL. -/
def inlineFree (text : List Char) : Bool :=
  (tokInline text.length text).all
    (fun p => match p with | .pat _ g => !is_http_url g.url | .lit _ => true)

/-- No match of `MD_REF_DEF` in `text` has a remote URL. -/
def refFree (text : List Char) : Bool :=
  (tokRef text.length true text).all
    (fun p => match p with | .pat _ g => !is_http_url g.url | .lit _ => true)

/-- No match of `HTML_IMG` in `text` has a remote `src`. -/
def htmlFree (text : List Char) : Bool :=
  (tokHtml text.length text).all
    (fun p => match p with | .pat _ g => !is_http_url g.src | .lit _ => true)

/-- A remote-free inline pass is the identity on text, cache and
world. -/
theorem process_inline_id (text : List Char) (ctx : PassCtx) (c : Cache)
    (w : World) (h : inlineFree text = true) :
    process_inline text ctx c w = (text, c, w) := by
  unfold process_inline
  rw [renderPieces_id]
  · rw [joinPieces_tokInline]
  · intro raw g hm c' w'
    have := (List.all_eq_true.mp h) _ hm
    simp only [Bool.not_eq_true'] at this
    exact rendInline_not_http ctx raw g c' w' this

/-- A remote-free reference-definition pass is the identity. -/
theorem process_ref_id (text : List Char) (ctx : PassCtx) (c : Cache)
    (w : World) (h : refFree text = true) :
    process_ref text ctx c w = (text, c, w) := by
  unfold process_ref
  rw [renderPieces_id]
  · rw [joinPieces_tokRef]
  · intro raw g hm c' w'
    have := (List.all_eq_true.mp h) _ hm
    simp only [Bool.not_eq_true'] at this
    exact rendRef_not_http ctx raw g c' w' this

/-- A remote-free HTML pass is the identity. -/
theorem process_html_id (text : List Char) (ctx : PassCtx) (c : Cache)
    (w : World) (h : htmlFree text = true) :
    process_html text ctx c w = (text, c, w) := by
  unfold process_html
  rw [renderPieces_id]
  · rw [joinPieces_tokHtml]
  · intro raw g hm c' w'
    have := (List.all_eq_true.mp h) _ hm
    simp only [Bool.not_eq_true'] at this
    exact rendHtml_not_http ctx raw g c' w' this

/-! ## Filesystem frame properties of `download` -/

/-- How a computation may change the filesystem: existing non-empty
files keep their contents, every write lands directly under `outDir`,
and files not under `outDir` are untouched. -/
structure FsFrame (outDir : List (List Char)) (w w' : World) : Prop where
  keep : ∀ p, existsNonempty w p = true → getFile w' p = getFile w p
  writesUnder : ∃ l, w'.writes = w.writes ++ l ∧ ∀ q ∈ l, ∃ f, q = outDir ++ [f]
  outside : ∀ p, (∀ f, p ≠ outDir ++ [f]) → getFile w' p = getFile w p

theorem FsFrame.rfl {outDir : List (List Char)} {w w' : World}
    (hf : w'.files = w.files) (hw : w'.writes = w.writes) : FsFrame outDir w w' := by
  refine ⟨fun p _ => ?_, ⟨[], by simp [hw], by simp⟩, fun p _ => ?_⟩ <;>
    simp [getFile, hf]

theorem existsNonempty_congr {w w' : World} {p : List (List Char)}
    (h : getFile w' p = getFile w p) : existsNonempty w' p = existsNonempty w p := by
  simp [existsNonempty, h]

theorem FsFrame.trans {outDir : List (List Char)} {w1 w2 w3 : World}
    (a : FsFrame outDir w1 w2) (b : FsFrame outDir w2 w3) : FsFrame outDir w1 w3 := by
  refine ⟨fun p hp => ?_, ?_, fun p hp => ?_⟩
  · have h12 := a.keep p hp
    have h2 : existsNonempty w2 p = true := by
      rw [existsNonempty_congr h12]; exact hp
    rw [b.keep p h2, h12]
  · obtain ⟨l1, hl1, hq1⟩ := a.writesUnder
    obtain ⟨l2, hl2, hq2⟩ := b.writesUnder
    exact ⟨l1 ++ l2, by simp [hl2, hl1], fun q hq => by
      rcases List.mem_append.mp hq with h | h
      · exact hq1 q h
      · exact hq2 q h⟩
  · rw [b.outside p hp, a.outside p hp]

/-- Prepend a files-and-writes-preserving step (log updates) to a
frame. -/
theorem FsFrame.pre {outDir : List (List Char)} {w w1 w2 : World}
    (h : FsFrame outDir w1 w2) (hf : w1.files = w.files) (hw : w1.writes = w.writes) :
    FsFrame outDir w w2 :=
  FsFrame.trans (FsFrame.rfl hf hw) h

/-- The retry loop only writes the derived target under `outDir`, and
never a path that already holds a non-empty file; it neither records a
`download` invocation nor reads other files. -/
theorem dlGo_frame (url : List Char) (outDir : List (List Char)) (net : NetOracle)
    (mr : Nat) : ∀ (left idx : Nat) (w : World),
    FsFrame outDir w (dlGo url outDir net mr left idx w).2 ∧
      (dlGo url outDir net mr left idx w).2.calls = w.calls := by
  intro left
  induction left with
  | zero => intro idx w; exact ⟨FsFrame.rfl rfl rfl, rfl⟩
  | succ left ih =>
    intro idx w
    simp only [dlGo]
    cases net url idx with
    | err =>
      simp only
      split
      · refine ⟨FsFrame.pre (ih (idx + 1) _).1 rfl rfl, ?_⟩
        rw [(ih (idx + 1) _).2]
      · exact ⟨FsFrame.rfl rfl rfl, rfl⟩
    | resp st ct chunks midErr =>
      simp only
      split
      · split
        · refine ⟨FsFrame.pre (ih (idx + 1) _).1 rfl rfl, ?_⟩
          rw [(ih (idx + 1) _).2]
        · exact ⟨FsFrame.rfl rfl rfl, rfl⟩
      · split
        · split
          · refine ⟨FsFrame.pre (ih (idx + 1) _).1 rfl rfl, ?_⟩
            rw [(ih (idx + 1) _).2]
          · exact ⟨FsFrame.rfl rfl rfl, rfl⟩
        · split
          · exact ⟨FsFrame.rfl rfl rfl, rfl⟩
          · rename_i hne
            have hset : FsFrame outDir w
                (setFile { w with gets := w.gets ++ [url] }
                  (outDir ++ [safe_filename_from_url url (some ct)])
                  (.bin (chunks.filter (· ≠ [])).flatten)) := by
              refine ⟨fun p hp => ?_, ⟨[outDir ++ [safe_filename_from_url url (some ct)]],
                by simp [setFile], by simp⟩, fun p hp => ?_⟩
              · have hpne : p ≠ outDir ++ [safe_filename_from_url url (some ct)] := by
                  intro hcontra
                  rw [hcontra] at hp
                  have : existsNonempty { w with gets := w.gets ++ [url] }
                      (outDir ++ [safe_filename_from_url url (some ct)]) = true := by
                    simpa [existsNonempty, getFile] using hp
                  simp_all
                rw [getFile_setFile_other _ _ _ _ hpne]
                simp [getFile]
              · rw [getFile_setFile_other _ _ _ _ (hp _)]
                simp [getFile]
            split
            · split
              · refine ⟨FsFrame.trans hset (FsFrame.pre (ih (idx + 1) _).1 rfl rfl), ?_⟩
                rw [(ih (idx + 1) _).2]
                simp [setFile]
              · exact ⟨FsFrame.trans hset (FsFrame.rfl rfl rfl), by simp [setFile]⟩
            · refine ⟨hset, by simp [setFile]⟩

/-- `download` invocation frame: one `calls` entry, filesystem as in
`dlGo_frame`. -/
theorem download_frame (url : List Char) (outDir : List (List Char))
    (net : NetOracle) (mr : Nat) (w : World) :
    FsFrame outDir w (download url outDir net mr w).2 ∧
      (download url outDir net mr w).2.calls = w.calls ++ [url] := by
  unfold download
  refine ⟨FsFrame.pre (dlGo_frame url outDir net mr (mr + 1) 0 _).1 rfl rfl, ?_⟩
  rw [(dlGo_frame url outDir net mr (mr + 1) 0 _).2]

/-! ## Attempt counting and the backoff schedule -/

/-- A `session.get` outcome that makes the attempt fail: a raised
exception, a status the code classifies retryable, or a status
`raise_for_status` raises on. -/
def attemptFails : NetResult → Bool
  | .err => true
  | .resp st _ _ _ => retryableStatus st || raisesForStatus st

/-- Shifting the backoff schedule by one failed attempt. -/
theorem backoff_shift (idx a : Nat) :
    7 * (idx + 1) :: (List.range a).map (fun i => 7 * (idx + 2 + i)) =
      (List.range (a + 1)).map (fun i => 7 * (idx + 1 + i)) := by
  have h2 : ((fun i => 7 * (idx + 1 + i)) ∘ Nat.succ) = fun i => 7 * (idx + 2 + i) := by
    funext i
    simp only [Function.comp_apply]
    omega
  rw [List.range_succ_eq_map, List.map_cons, List.map_map, h2]

/-- Every run of the retry loop performs between `1` and `left`
`GET`s, and sleeps `0.7 * (attempt + 1)` seconds after each failed
non-final attempt. -/
theorem dlGo_spec (url : List Char) (outDir : List (List Char)) (net : NetOracle)
    (mr : Nat) : ∀ (left idx : Nat) (w : World), 0 < left →
    ∃ a, 1 ≤ a ∧ a ≤ left ∧
      (dlGo url outDir net mr left idx w).2.gets = w.gets ++ List.replicate a url ∧
      (dlGo url outDir net mr left idx w).2.sleeps =
        w.sleeps ++ (List.range (a - 1)).map (fun i => 7 * (idx + 1 + i)) := by
  intro left
  induction left with
  | zero => intro idx w h; omega
  | succ left ih =>
    intro idx w _
    have hone : ∀ (r : Option (List (List Char))) (w2 : World),
        w2.gets = w.gets ++ [url] → w2.sleeps = w.sleeps →
        ∃ a, 1 ≤ a ∧ a ≤ left + 1 ∧
          (r, w2).2.gets = w.gets ++ List.replicate a url ∧
          (r, w2).2.sleeps =
            w.sleeps ++ (List.range (a - 1)).map (fun i => 7 * (idx + 1 + i)) := by
      intro r w2 hg hs
      exact ⟨1, le_rfl, by omega, by simpa using hg, by simpa using hs⟩
    have hrec : ∀ (w1 : World), 0 < left →
        w1.gets = w.gets ++ [url] → w1.sleeps = w.sleeps →
        ∃ a, 1 ≤ a ∧ a ≤ left + 1 ∧
          (dlGo url outDir net mr left (idx + 1)
            { w1 with sleeps := w1.sleeps ++ [7 * (idx + 1)] }).2.gets =
            w.gets ++ List.replicate a url ∧
          (dlGo url outDir net mr left (idx + 1)
            { w1 with sleeps := w1.sleeps ++ [7 * (idx + 1)] }).2.sleeps =
            w.sleeps ++ (List.range (a - 1)).map (fun i => 7 * (idx + 1 + i)) := by
      intro w1 hl hg hs
      obtain ⟨a, ha1, ha2, hg', hs'⟩ := ih (idx + 1)
        { w1 with sleeps := w1.sleeps ++ [7 * (idx + 1)] } hl
      refine ⟨a + 1, by omega, by omega, ?_, ?_⟩
      · rw [hg']
        simp [hg, List.replicate_succ]
      · rw [hs']
        simp only [hs, Nat.add_sub_cancel, List.append_assoc, List.singleton_append]
        rw [show a = (a - 1) + 1 by omega, backoff_shift]
        simp
    simp only [dlGo]
    cases net url idx with
    | err =>
      simp only
      split
      · exact hrec { w with gets := w.gets ++ [url] } (by assumption) rfl rfl
      · exact hone _ _ rfl rfl
    | resp st ct chunks midErr =>
      simp only
      split
      · split
        · exact hrec { w with gets := w.gets ++ [url] } (by assumption) rfl rfl
        · exact hone _ _ rfl rfl
      · split
        · split
          · exact hrec { w with gets := w.gets ++ [url] } (by assumption) rfl rfl
          · exact hone _ _ rfl rfl
        · split
          · exact hone _ _ rfl rfl
          · split
            · split
              · exact hrec (setFile { w with gets := w.gets ++ [url] }
                  (outDir ++ [safe_filename_from_url url (some ct)])
                  (.bin (chunks.filter (· ≠ [])).flatten)) (by assumption)
                  (by simp [setFile]) (by simp [setFile])
              · exact hone _ _ (by simp [setFile]) (by simp [setFile])
            · exact hone _ _ (by simp [setFile]) (by simp [setFile])

/-- When every attempt fails, the loop returns `none`, warns once, and
leaves the filesystem untouched. -/
theorem dlGo_allfail (url : List Char) (outDir : List (List Char)) (net : NetOracle)
    (mr : Nat) (hnet : ∀ j, attemptFails (net url j) = true) :
    ∀ (left idx : Nat) (w : World), 0 < left →
    (dlGo url outDir net mr left idx w).1 = none ∧
      (dlGo url outDir net mr left idx w).2.warns = w.warns ++ [url] ∧
      (dlGo url outDir net mr left idx w).2.files = w.files ∧
      (dlGo url outDir net mr left idx w).2.writes = w.writes := by
  intro left
  induction left with
  | zero => intro idx w h; omega
  | succ left ih =>
    intro idx w _
    simp only [dlGo]
    cases hn : net url idx with
    | err =>
      simp only
      split
      · exact ih (idx + 1)
          { w with gets := w.gets ++ [url], sleeps := w.sleeps ++ [7 * (idx + 1)] }
          (by assumption)
      · exact ⟨rfl, rfl, rfl, rfl⟩
    | resp st ct chunks midErr =>
      have hfail := hnet idx
      rw [hn] at hfail
      simp only [attemptFails, Bool.or_eq_true] at hfail
      by_cases hr : retryableStatus st = true
      · simp only [hr, if_true]
        split
        · exact ih (idx + 1)
            { w with gets := w.gets ++ [url], sleeps := w.sleeps ++ [7 * (idx + 1)] }
            (by assumption)
        · exact ⟨rfl, rfl, rfl, rfl⟩
      · have hs : raisesForStatus st = true := by
          rcases hfail with h | h
          · exact absurd h hr
          · exact h
        have hr' : retryableStatus st = false := by simpa using hr
        simp only [hr', hs, Bool.false_eq_true, if_false, if_true]
        split
        · exact ih (idx + 1)
            { w with gets := w.gets ++ [url], sleeps := w.sleeps ++ [7 * (idx + 1)] }
            (by assumption)
        · exact ⟨rfl, rfl, rfl, rfl⟩

/-- `download` under an always-failing oracle: failure, one warning,
no filesystem change. -/
theorem download_allfail (url : List Char) (outDir : List (List Char))
    (net : NetOracle) (mr : Nat) (w : World)
    (hnet : ∀ j, attemptFails (net url j) = true) :
    (download url outDir net mr w).1 = none ∧
      (download url outDir net mr w).2.warns = w.warns ++ [url] ∧
      (download url outDir net mr w).2.files = w.files ∧
      (download url outDir net mr w).2.writes = w.writes := by
  unfold download
  exact dlGo_allfail url outDir net mr hnet (mr + 1) 0
    { w with calls := w.calls ++ [url] } (by omega)

/-- A first attempt with a non-error status and an existing non-empty
target file short-circuits: the existing path is returned and the
world only records the invocation and the single `GET`. -/
theorem download_shortcircuit (url : List Char) (outDir : List (List Char))
    (net : NetOracle) (mr : Nat) (w : World) (st : Nat) (ct : List Char)
    (chunks : List (List Nat)) (mid : Bool)
    (h0 : net url 0 = .resp st ct chunks mid)
    (hr : retryableStatus st = false) (hs : raisesForStatus st = false)
    (he : existsNonempty w (outDir ++ [safe_filename_from_url url (some ct)]) = true) :
    download url outDir net mr w =
      (some (outDir ++ [safe_filename_from_url url (some ct)]),
        { w with calls := w.calls ++ [url], gets := w.gets ++ [url] }) := by
  unfold download
  show dlGo url outDir net mr (mr + 1) 0 _ = _
  have he' : existsNonempty
      { w with calls := w.calls ++ [url], gets := w.gets ++ [url] }
      (outDir ++ [safe_filename_from_url url (some ct)]) = true := by
    simpa [existsNonempty, getFile] using he
  simp only [dlGo, h0, hr, hs, Bool.false_eq_true, if_false, he', if_true]

/-- A mid-stream failure leaves the partial file, and the very next
retry attempt treats it as already fetched: the call succeeds with the
first attempt's partial bytes on disk, after exactly two `GET`s. -/
theorem download_partial_kept (url : List Char) (outDir : List (List Char))
    (net : NetOracle) (w : World) (st0 st1 : Nat) (ct0 ct1 : List Char)
    (ch0 ch1 : List (List Nat)) (m1 : Bool)
    (h0 : net url 0 = .resp st0 ct0 ch0 true)
    (hr0 : retryableStatus st0 = false) (hs0 : raisesForStatus st0 = false)
    (h1 : net url 1 = .resp st1 ct1 ch1 m1)
    (hr1 : retryableStatus st1 = false) (hs1 : raisesForStatus st1 = false)
    (hfn : safe_filename_from_url url (some ct1) = safe_filename_from_url url (some ct0))
    (he : existsNonempty w (outDir ++ [safe_filename_from_url url (some ct0)]) = false)
    (hch : (ch0.filter (· ≠ [])).flatten ≠ []) :
    (download url outDir net 2 w).1 =
      some (outDir ++ [safe_filename_from_url url (some ct0)]) ∧
    getFile (download url outDir net 2 w).2
        (outDir ++ [safe_filename_from_url url (some ct0)]) =
      some (.bin (ch0.filter (· ≠ [])).flatten) ∧
    (download url outDir net 2 w).2.gets = w.gets ++ [url, url] := by
  have he1 : existsNonempty
      { w with calls := w.calls ++ [url], gets := w.gets ++ [url] }
      (outDir ++ [safe_filename_from_url url (some ct0)]) = false := by
    simpa [existsNonempty, getFile] using he
  have hlt : (0 : Nat) < 2 := by norm_num
  have hpos : 0 < ((ch0.filter (· ≠ [])).flatten).length :=
    List.length_pos.mpr hch
  unfold download
  show (dlGo url outDir net 2 (2 + 1) 0 _).1 = _ ∧ _ ∧ _
  simp only [dlGo, h0, h1, hr0, hs0, hr1, hs1, Bool.false_eq_true, if_false, he1,
    hlt, if_true, hfn]
  simp only [existsNonempty, getFile, setFile, lookupFile_put_same, fsize, hpos,
    decide_True, eq_self_iff_true, if_true]
  exact ⟨trivial, trivial, by simp⟩

/-! ## Frame properties of the rewriters -/

theorem resolveUrl_fsframe (ctx : PassCtx) (url : List Char) (c : Cache) (w : World) :
    FsFrame ctx.outDir w (resolveUrl ctx url c w).2.2 := by
  unfold resolveUrl
  cases cacheLookup c url with
  | some rel => exact FsFrame.rfl rfl rfl
  | none =>
    simp only
    rcases hd : download url ctx.outDir ctx.net 2 w with ⟨r, w'⟩
    have hfr := (download_frame url ctx.outDir ctx.net 2 w).1
    rw [hd] at hfr
    cases r with
    | none => exact hfr
    | some saved => exact hfr

theorem rendInline_fsframe (ctx : PassCtx) (raw : List Char) (g : InlineG)
    (c : Cache) (w : World) : FsFrame ctx.outDir w (rendInline ctx raw g c w).2.2 := by
  unfold rendInline
  split
  · exact FsFrame.rfl rfl rfl
  · rcases hr : resolveUrl ctx g.url c w with ⟨r, c', w'⟩
    have hfr := resolveUrl_fsframe ctx g.url c w
    rw [hr] at hfr
    cases r with
    | none => exact hfr
    | some rel => exact hfr

theorem rendRef_fsframe (ctx : PassCtx) (raw : List Char) (g : RefG)
    (c : Cache) (w : World) : FsFrame ctx.outDir w (rendRef ctx raw g c w).2.2 := by
  unfold rendRef
  split
  · exact FsFrame.rfl rfl rfl
  · rcases hr : resolveUrl ctx g.url c w with ⟨r, c', w'⟩
    have hfr := resolveUrl_fsframe ctx g.url c w
    rw [hr] at hfr
    cases r with
    | none => exact hfr
    | some rel => exact hfr

theorem rendHtml_fsframe (ctx : PassCtx) (raw : List Char) (g : HtmlG)
    (c : Cache) (w : World) : FsFrame ctx.outDir w (rendHtml ctx raw g c w).2.2 := by
  unfold rendHtml
  split
  · exact FsFrame.rfl rfl rfl
  · rcases hr : resolveUrl ctx g.src c w with ⟨r, c', w'⟩
    have hfr := resolveUrl_fsframe ctx g.src c w
    rw [hr] at hfr
    cases r with
    | none => exact hfr
    | some rel => exact hfr

theorem renderPieces_fsframe {G : Type} (outDir : List (List Char))
    (rend : List Char → G → Cache → World → List Char × Cache × World)
    (h : ∀ raw g c' w', FsFrame outDir w' (rend raw g c' w').2.2) :
    ∀ (ps : List (Piece G)) (c : Cache) (w : World),
    FsFrame outDir w (renderPieces rend ps c w).2.2 := by
  intro ps
  induction ps with
  | nil => intro c w; exact FsFrame.rfl rfl rfl
  | cons p ps ih =>
    intro c w
    cases p with
    | lit ch => exact ih c w
    | pat raw g =>
      simp only [renderPieces]
      exact FsFrame.trans (h raw g c w) (ih _ _)

theorem process_inline_fsframe (text : List Char) (ctx : PassCtx) (c : Cache)
    (w : World) : FsFrame ctx.outDir w (process_inline text ctx c w).2.2 :=
  renderPieces_fsframe ctx.outDir (rendInline ctx)
    (fun raw g c' w' => rendInline_fsframe ctx raw g c' w') _ c w

theorem process_ref_fsframe (text : List Char) (ctx : PassCtx) (c : Cache)
    (w : World) : FsFrame ctx.outDir w (process_ref text ctx c w).2.2 :=
  renderPieces_fsframe ctx.outDir (rendRef ctx)
    (fun raw g c' w' => rendRef_fsframe ctx raw g c' w') _ c w

theorem process_html_fsframe (text : List Char) (ctx : PassCtx) (c : Cache)
    (w : World) : FsFrame ctx.outDir w (process_html text ctx c w).2.2 :=
  renderPieces_fsframe ctx.outDir (rendHtml ctx)
    (fun raw g c' w' => rendHtml_fsframe ctx raw g c' w') _ c w

/-! ## A pass under an always-failing network leaves text and cache
alone -/

theorem resolveUrl_fail (ctx : PassCtx) (url : List Char) (w : World)
    (hnet : ∀ u j, attemptFails (ctx.net u j) = true) :
    (resolveUrl ctx url [] w).1 = none ∧ (resolveUrl ctx url [] w).2.1 = [] := by
  unfold resolveUrl
  have h1 : cacheLookup [] url = none := rfl
  rw [h1]
  simp only
  rcases hd : download url ctx.outDir ctx.net 2 w with ⟨r, w'⟩
  have := (download_allfail url ctx.outDir ctx.net 2 w (hnet url)).1
  rw [hd] at this
  simp only at this
  subst this
  exact ⟨rfl, rfl⟩

theorem rendInline_fail (ctx : PassCtx) (raw : List Char) (g : InlineG) (w : World)
    (hnet : ∀ u j, attemptFails (ctx.net u j) = true) :
    (rendInline ctx raw g [] w).1 = raw ∧ (rendInline ctx raw g [] w).2.1 = [] := by
  unfold rendInline
  split
  · exact ⟨rfl, rfl⟩
  · rcases hr : resolveUrl ctx g.url [] w with ⟨r, c', w'⟩
    have hfail := resolveUrl_fail ctx g.url w hnet
    rw [hr] at hfail
    obtain ⟨h1, h2⟩ := hfail
    simp only at h1 h2
    subst h1
    subst h2
    exact ⟨rfl, rfl⟩

theorem rendRef_fail (ctx : PassCtx) (raw : List Char) (g : RefG) (w : World)
    (hnet : ∀ u j, attemptFails (ctx.net u j) = true) :
    (rendRef ctx raw g [] w).1 = raw ∧ (rendRef ctx raw g [] w).2.1 = [] := by
  unfold rendRef
  split
  · exact ⟨rfl, rfl⟩
  · rcases hr : resolveUrl ctx g.url [] w with ⟨r, c', w'⟩
    have hfail := resolveUrl_fail ctx g.url w hnet
    rw [hr] at hfail
    obtain ⟨h1, h2⟩ := hfail
    simp only at h1 h2
    subst h1
    subst h2
    exact ⟨rfl, rfl⟩

theorem rendHtml_fail (ctx : PassCtx) (raw : List Char) (g : HtmlG) (w : World)
    (hnet : ∀ u j, attemptFails (ctx.net u j) = true) :
    (rendHtml ctx raw g [] w).1 = raw ∧ (rendHtml ctx raw g [] w).2.1 = [] := by
  unfold rendHtml
  split
  · exact ⟨rfl, rfl⟩
  · rcases hr : resolveUrl ctx g.src [] w with ⟨r, c', w'⟩
    have hfail := resolveUrl_fail ctx g.src w hnet
    rw [hr] at hfail
    obtain ⟨h1, h2⟩ := hfail
    simp only at h1 h2
    subst h1
    subst h2
    exact ⟨rfl, rfl⟩

theorem renderPieces_fail_id {G : Type}
    (rend : List Char → G → Cache → World → List Char × Cache × World)
    (h : ∀ raw g w', (rend raw g [] w').1 = raw ∧ (rend raw g [] w').2.1 = []) :
    ∀ (ps : List (Piece G)) (w : World),
    (renderPieces rend ps [] w).1 = joinPieces ps ∧
      (renderPieces rend ps [] w).2.1 = [] := by
  intro ps
  induction ps with
  | nil => intro w; exact ⟨rfl, rfl⟩
  | cons p ps ih =>
    intro w
    cases p with
    | lit ch =>
      simp only [renderPieces, joinPieces]
      exact ⟨by rw [(ih w).1], (ih w).2⟩
    | pat raw g =>
      simp only [renderPieces, joinPieces]
      obtain ⟨h1, h2⟩ := h raw g w
      rw [h1, h2]
      exact ⟨by rw [(ih _).1], (ih _).2⟩

/-- Under an always-failing network, the inline pass emits the
document unchanged and leaves the cache empty. -/
theorem process_inline_fail (text : List Char) (ctx : PassCtx) (w : World)
    (hnet : ∀ u j, attemptFails (ctx.net u j) = true) :
    (process_inline text ctx [] w).1 = text ∧
      (process_inline text ctx [] w).2.1 = [] := by
  unfold process_inline
  have := renderPieces_fail_id (rendInline ctx)
    (fun raw g w' => rendInline_fail ctx raw g w' hnet)
    (tokInline text.length text) w
  rwa [joinPieces_tokInline] at this

/-- Under an always-failing network, the definition pass emits the
document unchanged. -/
theorem process_ref_fail (text : List Char) (ctx : PassCtx) (w : World)
    (hnet : ∀ u j, attemptFails (ctx.net u j) = true) :
    (process_ref text ctx [] w).1 = text ∧
      (process_ref text ctx [] w).2.1 = [] := by
  unfold process_ref
  have := renderPieces_fail_id (rendRef ctx)
    (fun raw g w' => rendRef_fail ctx raw g w' hnet)
    (tokRef text.length true text) w
  rwa [joinPieces_tokRef] at this

/-- Under an always-failing network, the HTML pass emits the document
unchanged. -/
theorem process_html_fail (text : List Char) (ctx : PassCtx) (w : World)
    (hnet : ∀ u j, attemptFails (ctx.net u j) = true) :
    (process_html text ctx [] w).1 = text ∧
      (process_html text ctx [] w).2.1 = [] := by
  unfold process_html
  have := renderPieces_fail_id (rendHtml ctx)
    (fun raw g w' => rendHtml_fail ctx raw g w' hnet)
    (tokHtml text.length text) w
  rwa [joinPieces_tokHtml] at this

/-! ## `process_md_file` properties -/

theorem converted_name_ne (mdName : List Char) :
    mdName ++ ".converted".data ≠ mdName := by
  intro h
  have := congrArg List.length h
  simp at this

theorem converted_key_ne (mdDir : List (List Char)) (mdName : List Char) :
    mdDir ++ [mdName ++ ".converted".data] ≠ mdDir ++ [mdName] := by
  intro h
  have := List.append_cancel_left h
  simp only [List.cons.injEq] at this
  exact converted_name_ne mdName this.1

/-- Where `process_md_file` writes: the returned path is the original
key under `--overwrite` and the `.converted` sibling otherwise; that
path holds the final text, and without `--overwrite` the original
document's contents are untouched. -/
theorem process_md_file_spec (mdDir : List (List Char)) (mdName : List Char)
    (outArg : OutDirArg) (overwrite : Bool) (net : NetOracle) (w : World)
    (text : List Char)
    (hread : getFile w (mdDir ++ [mdName]) = some (.text text)) :
    (process_md_file mdDir mdName outArg overwrite net w).1 =
      some (if overwrite then mdDir ++ [mdName]
        else mdDir ++ [mdName ++ ".converted".data]) ∧
    (∃ t3, getFile (process_md_file mdDir mdName outArg overwrite net w).2
      (if overwrite then mdDir ++ [mdName]
        else mdDir ++ [mdName ++ ".converted".data]) = some (.text t3)) ∧
    (overwrite = false →
      getFile (process_md_file mdDir mdName outArg overwrite net w).2
        (mdDir ++ [mdName]) = some (.text text)) := by
  refine ⟨?_, ?_, ?_⟩
  · simp [process_md_file, hread]
  · cases overwrite
    · simp only [process_md_file, hread, Bool.false_eq_true, if_false]
      exact ⟨_, getFile_setFile_same _ _ _⟩
    · simp only [process_md_file, hread, if_true]
      exact ⟨_, getFile_setFile_same _ _ _⟩
  intro hov
  subst hov
  simp only [process_md_file, hread, Bool.false_eq_true, if_false]
  rw [getFile_setFile_other _ _ _ _ (Ne.symm (converted_key_ne mdDir mdName))]
  -- the three passes keep the original file: its content is non-empty
  -- whenever the document text is non-empty, and an empty document
  -- tokenizes to nothing, so the passes do not touch the world at all
  by_cases htext : text = []
  · subst htext
    exact hread
  · have hne : existsNonempty w (mdDir ++ [mdName]) = true := by
      simp only [existsNonempty, hread, fsize]
      have := utf8Bytes_ne_nil htext
      simpa [List.length_pos] using this
    set ctx : PassCtx := ⟨match outArg with
      | .abs p => p
      | .rel p => resolveComps (mdDir ++ p), resolveComps mdDir, net⟩ with hctx
    have f1 := process_inline_fsframe text ctx [] w
    have f2 := process_ref_fsframe (process_inline text ctx [] w).1 ctx
      (process_inline text ctx [] w).2.1 (process_inline text ctx [] w).2.2
    have f3 := process_html_fsframe
      (process_ref (process_inline text ctx [] w).1 ctx
        (process_inline text ctx [] w).2.1 (process_inline text ctx [] w).2.2).1 ctx
      (process_ref (process_inline text ctx [] w).1 ctx
        (process_inline text ctx [] w).2.1 (process_inline text ctx [] w).2.2).2.1
      (process_ref (process_inline text ctx [] w).1 ctx
        (process_inline text ctx [] w).2.1 (process_inline text ctx [] w).2.2).2.2
    have hkeep := (FsFrame.trans f1 (FsFrame.trans f2 f3)).keep _ hne
    rw [hkeep, hread]

/-- With `--overwrite`, a document none of whose matches is remote is
rewritten to itself: the processor writes the same text back and the
filesystem, fetch log and warning log do not change. -/
theorem process_md_file_identity (mdDir : List (List Char)) (mdName : List Char)
    (outArg : OutDirArg) (net : NetOracle) (w : World) (t : List Char)
    (hread : getFile w (mdDir ++ [mdName]) = some (.text t))
    (h1 : inlineFree t = true) (h2 : refFree t = true) (h3 : htmlFree t = true) :
    process_md_file mdDir mdName outArg true net w =
      (some (mdDir ++ [mdName]), setFile w (mdDir ++ [mdName]) (.text t)) ∧
    (setFile w (mdDir ++ [mdName]) (.text t)).files = w.files ∧
    (setFile w (mdDir ++ [mdName]) (.text t)).gets = w.gets ∧
    (setFile w (mdDir ++ [mdName]) (.text t)).calls = w.calls ∧
    (setFile w (mdDir ++ [mdName]) (.text t)).warns = w.warns := by
  refine ⟨?_, ?_, rfl, rfl, rfl⟩
  · simp only [process_md_file, hread]
    rw [process_inline_id t _ [] w h1]
    rw [process_ref_id t _ [] w h2]
    rw [process_html_id t _ [] w h3]
    simp
  · simp only [setFile]
    exact congrArg (fun fs => fs) (putFileTable_same_value w.files _ _ hread)

/-! ## Structure of the URL fingerprint -/

theorem sha1Block_shape (h block : List Nat) :
    ∃ a b c d e, sha1Block h block = [a, b, c, d, e] ∧
      a < 4294967296 ∧ b < 4294967296 := by
  refine ⟨_, _, _, _, _, rfl, ?_, ?_⟩ <;> exact Nat.mod_lt _ (by norm_num)

theorem foldl_sha1Block_shape (bs : List (List Nat)) :
    ∀ acc, (∃ a b c d e, acc = [a, b, c, d, e] ∧ a < 4294967296 ∧ b < 4294967296) →
    ∃ a b c d e, bs.foldl sha1Block acc = [a, b, c, d, e] ∧
      a < 4294967296 ∧ b < 4294967296 := by
  induction bs with
  | nil => intro acc h; exact h
  | cons x bs ih =>
    intro acc _
    exact ih (sha1Block acc x) (sha1Block_shape acc x)

theorem sha1Words_shape (m : List Nat) :
    ∃ a b c d e, sha1Words m = [a, b, c, d, e] ∧
      a < 4294967296 ∧ b < 4294967296 := by
  unfold sha1Words
  exact foldl_sha1Block_shape _ _ ⟨_, _, _, _, _, rfl, by norm_num, by norm_num⟩

/-- The first ten hex digits of a digest only depend on the first word
and the top byte of the second word. -/
theorem urlFingerprint_struct (url : List Char) :
    ∃ a b c d e, sha1Words (utf8Bytes url) = [a, b, c, d, e] ∧
      a < 4294967296 ∧ b < 4294967296 ∧
      urlFingerprint url = hexN 8 a ++ hexN 2 (b / 16 ^ 6) := by
  obtain ⟨a, b, c, d, e, hw, ha, hb⟩ := sha1Words_shape (utf8Bytes url)
  refine ⟨a, b, c, d, e, hw, ha, hb, ?_⟩
  unfold urlFingerprint sha1HexList
  rw [hw]
  simp only [List.map_cons, List.map_nil, List.flatten_cons, List.flatten_nil,
    List.append_nil]
  rw [List.take_append_eq_append_take,
    List.take_of_length_le (by rw [hexN_length]; norm_num), hexN_length]
  norm_num
  rw [List.take_append_eq_append_take, hexN_length]
  norm_num
  rw [show (8 : Nat) = 2 + 6 from rfl, hexN_add]
  rw [List.take_append_eq_append_take,
    List.take_of_length_le (by rw [hexN_length]), hexN_length]
  norm_num

/-- The pair that determines a fingerprint. -/
def fpKey (url : List Char) : Nat × Nat :=
  ((sha1Words (utf8Bytes url)).getD 0 0,
    (sha1Words (utf8Bytes url)).getD 1 0 / 16 ^ 6)

theorem fpKey_lt (url : List Char) :
    (fpKey url).1 < 4294967296 ∧ (fpKey url).2 < 4294967296 := by
  obtain ⟨a, b, c, d, e, hw, ha, hb, -⟩ := urlFingerprint_struct url
  unfold fpKey
  rw [hw]
  simp only [List.getD, List.get?, Option.getD]
  exact ⟨ha, lt_of_le_of_lt (Nat.div_le_self _ _) hb⟩

theorem urlFingerprint_of_fpKey {u1 u2 : List Char} (h : fpKey u1 = fpKey u2) :
    urlFingerprint u1 = urlFingerprint u2 := by
  obtain ⟨a1, b1, c1, d1, e1, hw1, -, -, hf1⟩ := urlFingerprint_struct u1
  obtain ⟨a2, b2, c2, d2, e2, hw2, -, -, hf2⟩ := urlFingerprint_struct u2
  unfold fpKey at h
  rw [hw1, hw2] at h
  simp only [List.getD, List.get?, Option.getD, Prod.mk.injEq] at h
  rw [hf1, hf2, h.1, h.2]

/-! ## A truncated-digest collision exists (pigeonhole) -/

/-- A family of pairwise distinct URLs all sharing the basename
`a.png` (the query string varies, the path does not). -/
def urlN (n : Nat) : List Char :=
  "http://h/a.png?".data ++ List.replicate n 'b'

theorem urlN_injective : Function.Injective urlN := by
  intro n m h
  have := congrArg List.length h
  simpa [urlN] using this

theorem repN_filter (n : Nat) :
    (List.replicate n 'b').filter (fun c => !isUnsafeUrlChar c) =
      List.replicate n 'b' := by
  simp +decide [List.filter_replicate, isUnsafeUrlChar]

theorem urlN_prep (n : Nat) : urlPrep (urlN n) =
    'h' :: 't' :: 't' :: 'p' :: ':' :: '/' :: '/' :: 'h' :: '/' :: 'a' :: '.' ::
      'p' :: 'n' :: 'g' :: '?' :: List.replicate n 'b' := by
  unfold urlPrep urlN
  rw [show "http://h/a.png?".data =
    'h' :: 't' :: 't' :: 'p' :: ':' :: '/' :: '/' :: 'h' :: '/' :: 'a' :: '.' ::
      'p' :: 'n' :: 'g' :: '?' :: ([] : List Char) from rfl]
  simp only [List.cons_append, List.nil_append]
  rw [List.dropWhile_cons]
  simp only [show isC0OrSpace 'h' = false from rfl, Bool.false_eq_true, if_false]
  simp +decide [List.filter_cons, repN_filter]

theorem urlN_scheme (n : Nat) :
    splitScheme (urlPrep (urlN n)) =
      ("http".data, '/' :: '/' :: 'h' :: '/' :: 'a' :: '.' :: 'p' :: 'n' :: 'g' ::
        '?' :: List.replicate n 'b') := by
  rw [urlN_prep]
  simp +decide [splitScheme, List.findIdx?_cons, validScheme, isSchemeChar,
    List.take_succ_cons, List.drop_succ_cons]

theorem urlN_parts (n : Nat) :
    pyUrlparts (urlN n) = ⟨"http".data, "h".data, "/a.png".data⟩ := by
  simp only [pyUrlparts]
  rw [urlN_scheme]
  simp +decide [List.takeWhile_cons, List.dropWhile_cons, isNetlocEnd, isPathEnd,
    pyUrlPath]

theorem urlN_raises (n : Nat) : urlsplitRaises (urlN n) = false := by
  unfold urlsplitRaises
  rw [urlN_scheme]
  simp +decide [List.takeWhile_cons, isNetlocEnd]

theorem urlN_parse (n : Nat) :
    pyUrlparse (urlN n) = some ⟨"http".data, "h".data, "/a.png".data⟩ := by
  unfold pyUrlparse
  rw [urlN_raises, urlN_parts]
  simp

theorem urlN_path (n : Nat) : (pyUrlparts (urlN n)).path = "/a.png".data := by
  rw [urlN_parts]

theorem urlN_stemExt (n : Nat) :
    filenameStemExt (urlN n) = ("a".data, ".png".data) := by
  unfold filenameStemExt
  rw [urlN_path]
  decide

theorem urlN_filename (n : Nat) (ct : Option (List Char)) :
    safe_filename_from_url (urlN n) ct =
      "a".data ++ "_".data ++ urlFingerprint (urlN n) ++ ".png".data := by
  unfold safe_filename_from_url filenameExt
  rw [urlN_stemExt]
  simp +decide

/-- Infinitely many URLs share the basename while fingerprints live in
a finite set: two distinct URLs collide on the whole filename. -/
theorem filename_collision : ∃ n m : Nat, n ≠ m ∧
    safe_filename_from_url (urlN n) none = safe_filename_from_url (urlN m) none := by
  have hfin := Finite.exists_ne_map_eq_of_infinite
    (fun k : Nat => ((⟨(fpKey (urlN k)).1, (fpKey_lt (urlN k)).1⟩ : Fin 4294967296),
      (⟨(fpKey (urlN k)).2, (fpKey_lt (urlN k)).2⟩ : Fin 4294967296)))
  obtain ⟨n, m, hnm, heq⟩ := hfin
  refine ⟨n, m, hnm, ?_⟩
  simp only [Prod.mk.injEq, Fin.mk.injEq] at heq
  have hkey : fpKey (urlN n) = fpKey (urlN m) := Prod.ext heq.1 heq.2
  rw [urlN_filename, urlN_filename, urlFingerprint_of_fpKey hkey]

/-! ## Distinctness of derived filenames -/

theorem urlFingerprint_length (url : List Char) :
    (urlFingerprint url).length = 10 := by
  obtain ⟨a, b, c, d, e, -, -, -, hf⟩ := urlFingerprint_struct url
  rw [hf]
  simp [hexN_length]

/-- Equal stems but different fingerprints always give different
filenames, whatever the extensions are. -/
theorem safe_filename_ne_of_fp_ne (u1 u2 : List Char)
    (ct1 ct2 : Option (List Char))
    (hstem : (filenameStemExt u1).1 = (filenameStemExt u2).1)
    (hfp : urlFingerprint u1 ≠ urlFingerprint u2) :
    safe_filename_from_url u1 ct1 ≠ safe_filename_from_url u2 ct2 := by
  intro h
  unfold safe_filename_from_url at h
  rw [hstem] at h
  simp only [List.append_assoc] at h
  have h2 := List.append_cancel_left h
  have h3 := List.append_cancel_left h2
  have h4 := (List.append_inj h3 (by
    rw [urlFingerprint_length, urlFingerprint_length])).1
  exact hfp h4

/-! ## Canonical parses of the Markdown image syntaxes -/

theorem inlineCont_nonspace (c : Char) (rest : List Char)
    (h1 : isPySpace c = false) (h2 : c ≠ ')') :
    inlineCont (c :: rest) = none := by
  simp only [inlineCont, List.takeWhile_cons, h1, Bool.false_eq_true, if_false,
    List.length_nil, lt_self_iff_false]
  split
  · simp_all
  · rfl

theorem inlineCont_title (title rest : List Char)
    (ht : ∀ ch ∈ title, ch ≠ '"') :
    inlineCont (' ' :: '"' :: (title ++ '"' :: ')' :: rest)) =
      some (some title, title.length + 4) := by
  unfold inlineCont
  have hsp : isPySpace ' ' = true := by decide
  have hnq : isPySpace '"' = false := by decide
  have htake : (title ++ '"' :: ')' :: rest).takeWhile (· ≠ '"') = title := by
    refine takeWhile_append_stop _ (fun c hc => by simpa using ht c hc) ?_
    intro y hy
    simp only [List.head?_cons, Option.some.injEq] at hy
    subst hy
    decide
  have hdrop : (title ++ '"' :: ')' :: rest).dropWhile (· ≠ '"') = '"' :: ')' :: rest := by
    refine dropWhile_append_stop _ (fun c hc => by simpa using ht c hc) ?_
    intro y hy
    simp only [List.head?_cons, Option.some.injEq] at hy
    subst hy
    decide
  simp only [List.takeWhile_cons, hsp, hnq, Bool.false_eq_true, if_true, if_false,
    List.length_cons, List.length_nil, List.dropWhile_cons, htake, hdrop]
  simp only [Nat.zero_lt_succ, if_true]
  refine congrArg some (congrArg _ ?_)
  omega

theorem inlineCont_close (rest : List Char) :
    inlineCont (')' :: rest) = some (none, 1) := by
  unfold inlineCont
  have h1 : isPySpace ')' = false := by decide
  simp only [List.takeWhile_cons, h1, Bool.false_eq_true, if_false, List.length_nil,
    Nat.lt_irrefl]

theorem inlineUrlLoop_append (url tail : List Char)
    (res : Option (List Char) × Nat)
    (hchars : ∀ ch ∈ url, isPySpace ch = false ∧ ch ≠ ')')
    (hcont : inlineCont tail = some res) (hne : url ≠ []) :
    ∀ k, inlineUrlLoop (url ++ tail) k =
      some (k + url.length, res.1, k + url.length + res.2) := by
  induction url with
  | nil => exact absurd rfl hne
  | cons c cs ih =>
    intro k
    have hc := hchars c (by simp)
    rw [List.cons_append, inlineUrlLoop]
    simp only [hc.1, Bool.false_eq_true, if_false]
    cases cs with
    | nil =>
      simp only [List.nil_append, hcont]
      show some (k + 1, res.1, k + 1 + res.2) = _
      simp
    | cons c2 cs2 =>
      have hc2 := hchars c2 (by simp)
      rw [show (c2 :: cs2) ++ tail = c2 :: (cs2 ++ tail) from rfl]
      rw [inlineCont_nonspace c2 (cs2 ++ tail) hc2.1 hc2.2]
      have hih := ih (fun ch hch => hchars ch (by simp [hch])) (by simp) (k + 1)
      rw [show c2 :: (cs2 ++ tail) = (c2 :: cs2) ++ tail from rfl, hih]
      show some (k + 1 + (c2 :: cs2).length, res.1, k + 1 + (c2 :: cs2).length + res.2) = _
      have harith : k + 1 + (c2 :: cs2).length = k + (c :: c2 :: cs2).length := by
        simp only [List.length_cons]
        omega
      rw [harith]

/-- `MD_IMG_INLINE` parses the canonical form exactly, recovering the
alt text, the URL and the continuation's groups. -/
theorem matchInline_canonical (alt url tail : List Char)
    (res : Option (List Char) × Nat)
    (halt : ∀ ch ∈ alt, ch ≠ ']')
    (hchars : ∀ ch ∈ url, isPySpace ch = false ∧ ch ≠ ')')
    (hcont : inlineCont tail = some res) (hne : url ≠ []) :
    ∃ r, matchInline ('!' :: '[' :: (alt ++ ']' :: '(' :: (url ++ tail))) = some r ∧
      r.g = ⟨alt, url, res.1⟩ ∧ r.n = 4 + alt.length + url.length + res.2 := by
  have htake : (alt ++ ']' :: '(' :: (url ++ tail)).takeWhile (· ≠ ']') = alt := by
    refine takeWhile_append_stop _ (fun c hc => by simpa using halt c hc) ?_
    intro y hy
    simp only [List.head?_cons, Option.some.injEq] at hy
    subst hy
    decide
  have hdrop : (alt ++ ']' :: '(' :: (url ++ tail)).dropWhile (· ≠ ']') =
      ']' :: '(' :: (url ++ tail) := by
    refine dropWhile_append_stop _ (fun c hc => by simpa using halt c hc) ?_
    intro y hy
    simp only [List.head?_cons, Option.some.injEq] at hy
    subst hy
    decide
  simp only [matchInline, htake, hdrop]
  rw [inlineUrlLoop_append url tail res hchars hcont hne 0]
  refine ⟨_, rfl, ?_, ?_⟩
  · show InlineG.mk alt ((url ++ tail).take (0 + url.length)) res.1 = _
    rw [show 0 + url.length = url.length by omega, List.take_left]
  · show 4 + alt.length + (0 + url.length + res.2) = _
    omega

theorem space_block (u0 : Char) (us x : List Char) (h : isPySpace u0 = false) :
    (' ' :: ((u0 :: us) ++ x)).takeWhile isPySpace = [' '] ∧
    (' ' :: ((u0 :: us) ++ x)).dropWhile isPySpace = (u0 :: us) ++ x := by
  have hsp : isPySpace ' ' = true := by decide
  constructor <;>
    simp [List.takeWhile_cons, List.dropWhile_cons, hsp, h]

/-- `MD_REF_DEF` parses the canonical titled definition line exactly. -/
theorem matchRefDef_canonical (id url title rest : List Char) (j : Nat)
    (hid : id ≠ []) (hidc : ∀ ch ∈ id, ch ≠ ']')
    (hurl : url ≠ []) (hurlc : ∀ ch ∈ url, isPySpace ch = false)
    (htitle : ∀ ch ∈ title, ch ≠ '"')
    (htr : refTrailing rest = some j) :
    ∃ r, matchRefDef ('[' :: (id ++ ']' :: ':' :: ' ' ::
        (url ++ ' ' :: '"' :: (title ++ '"' :: rest)))) = some r ∧
      r.g = ⟨id, url, some title⟩ ∧
      r.n = id.length + url.length + title.length + j + 7 := by
  obtain ⟨u0, us, rfl⟩ : ∃ u0 us, url = u0 :: us := by
    cases url with
    | nil => exact absurd rfl hurl
    | cons a l => exact ⟨a, l, rfl⟩
  have hu0 : isPySpace u0 = false := hurlc u0 (by simp)
  have htakeId : (id ++ ']' :: ':' :: ' ' ::
      ((u0 :: us) ++ ' ' :: '"' :: (title ++ '"' :: rest))).takeWhile (· ≠ ']') = id := by
    refine takeWhile_append_stop _ (fun c hc => by simpa using hidc c hc) ?_
    intro y hy
    simp only [List.head?_cons, Option.some.injEq] at hy
    subst hy
    decide
  have hdropId : (id ++ ']' :: ':' :: ' ' ::
      ((u0 :: us) ++ ' ' :: '"' :: (title ++ '"' :: rest))).dropWhile (· ≠ ']') =
      ']' :: ':' :: ' ' :: ((u0 :: us) ++ ' ' :: '"' :: (title ++ '"' :: rest)) := by
    refine dropWhile_append_stop _ (fun c hc => by simpa using hidc c hc) ?_
    intro y hy
    simp only [List.head?_cons, Option.some.injEq] at hy
    subst hy
    decide
  have hsp1 := space_block u0 us (' ' :: '"' :: (title ++ '"' :: rest)) hu0
  have hurlTake : ((u0 :: us) ++ ' ' :: '"' :: (title ++ '"' :: rest)).takeWhile
      (fun c => !isPySpace c) = u0 :: us := by
    refine takeWhile_append_stop _ (fun c hc => by simp [hurlc c hc]) ?_
    intro y hy
    simp only [List.head?_cons, Option.some.injEq] at hy
    subst hy
    decide
  have hurlDrop : ((u0 :: us) ++ ' ' :: '"' :: (title ++ '"' :: rest)).dropWhile
      (fun c => !isPySpace c) = ' ' :: '"' :: (title ++ '"' :: rest) := by
    refine dropWhile_append_stop _ (fun c hc => by simp [hurlc c hc]) ?_
    intro y hy
    simp only [List.head?_cons, Option.some.injEq] at hy
    subst hy
    decide
  have hsp2 : (' ' :: '"' :: (title ++ '"' :: rest)).takeWhile isPySpace = [' '] ∧
      (' ' :: '"' :: (title ++ '"' :: rest)).dropWhile isPySpace =
        '"' :: (title ++ '"' :: rest) := by
    constructor <;> simp +decide [List.takeWhile_cons, List.dropWhile_cons]
  have htTake : (title ++ '"' :: rest).takeWhile (· ≠ '"') = title := by
    refine takeWhile_append_stop _ (fun c hc => by simpa using htitle c hc) ?_
    intro y hy
    simp only [List.head?_cons, Option.some.injEq] at hy
    subst hy
    decide
  have htDrop : (title ++ '"' :: rest).dropWhile (· ≠ '"') = '"' :: rest := by
    refine dropWhile_append_stop _ (fun c hc => by simpa using htitle c hc) ?_
    intro y hy
    simp only [List.head?_cons, Option.some.injEq] at hy
    subst hy
    decide
  simp only [matchRefDef, htakeId, hdropId, hid, if_false, hsp1.1, hsp1.2,
    hurlTake, hurlDrop, hsp2.1, hsp2.2, htTake, htDrop, htr, List.length_cons,
    List.length_nil]
  exact ⟨_, rfl, rfl, by simp only [List.length_cons]; omega⟩

/-! ## Documents consisting of a single match -/

theorem tokInline_nil (f : Nat) : tokInline f [] = [] := by
  cases f <;> rfl

theorem tokRef_nil (f : Nat) (st : Bool) : tokRef f st [] = [] := by
  cases f <;> rfl

theorem tokHtml_nil (f : Nat) : tokHtml f [] = [] := by
  cases f <;> rfl

theorem tokInline_single (c : Char) (cs : List Char) (r : MRes InlineG)
    (hm : matchInline (c :: cs) = some r) (hn : r.n = (c :: cs).length) :
    tokInline (c :: cs).length (c :: cs) = [.pat (c :: cs) r.g] := by
  show tokInline (cs.length + 1) (c :: cs) = _
  simp only [tokInline, hm, hn]
  rw [List.take_of_length_le (le_refl _), List.drop_length, tokInline_nil]

theorem tokRef_single (c : Char) (cs : List Char) (r : MRes RefG)
    (hm : matchRefDef (c :: cs) = some r) (hn : r.n = (c :: cs).length) :
    tokRef (c :: cs).length true (c :: cs) = [.pat (c :: cs) r.g] := by
  show tokRef (cs.length + 1) true (c :: cs) = _
  simp only [tokRef, hm, hn, if_true]
  rw [List.take_of_length_le (le_refl _), List.drop_length, tokRef_nil]

theorem tokHtml_single (c : Char) (cs : List Char) (r : MRes HtmlG)
    (hm : matchHtml (c :: cs) = some r) (hn : r.n = (c :: cs).length) :
    tokHtml (c :: cs).length (c :: cs) = [.pat (c :: cs) r.g] := by
  show tokHtml (cs.length + 1) (c :: cs) = _
  simp only [tokHtml, hm, hn]
  rw [List.take_of_length_le (le_refl _), List.drop_length, tokHtml_nil]

/-! ## Cache behaviour of `resolveUrl` -/

/-- A cached URL is substituted without touching network or world. -/
theorem resolveUrl_cached (ctx : PassCtx) (url : List Char) (c : Cache) (w : World)
    (rel : List Char) (h : cacheLookup c url = some rel) :
    resolveUrl ctx url c w = (some rel, c, w) := by
  simp [resolveUrl, h]

/-- A cache miss with a successful download computes the relative path
and appends it to the cache. -/
theorem resolveUrl_miss (ctx : PassCtx) (url : List Char) (c : Cache) (w w' : World)
    (saved : List (List Char)) (h : cacheLookup c url = none)
    (hd : download url ctx.outDir ctx.net 2 w = (some saved, w')) :
    resolveUrl ctx url c w =
      (some (relpathComps saved ctx.base),
        c ++ [(url, relpathComps saved ctx.base)], w') := by
  simp [resolveUrl, h, hd]

/-! ## A whole pass on a single canonical match -/

/-- The inline rewriter on a document that is exactly one inline image
with a remote URL whose resolution succeeds: the output is the rebuilt
syntax around the local path — alt preserved, non-empty title
preserved, empty or missing title dropped. -/
theorem process_inline_canonical (ctx : PassCtx) (alt url tail : List Char)
    (res : Option (List Char) × Nat) (c c' : Cache) (w w' : World) (rel : List Char)
    (halt : ∀ ch ∈ alt, ch ≠ ']')
    (hchars : ∀ ch ∈ url, isPySpace ch = false ∧ ch ≠ ')')
    (hcont : inlineCont tail = some res) (hne : url ≠ [])
    (hlen : res.2 = tail.length)
    (hhttp : is_http_url url = true)
    (hres : resolveUrl ctx url c w = (some rel, c', w')) :
    process_inline ('!' :: '[' :: (alt ++ ']' :: '(' :: (url ++ tail))) ctx c w =
      ("![".data ++ alt ++ "](".data ++ rel ++
        (match res.1 with
         | some t => if t ≠ [] then " \"".data ++ t ++ "\"".data else []
         | none => []) ++ ")".data, c', w') := by
  obtain ⟨r, hm, hg, hn⟩ := matchInline_canonical alt url tail res halt hchars hcont hne
  have hlen2 : r.n = ('!' :: '[' :: (alt ++ ']' :: '(' :: (url ++ tail))).length := by
    simp [hn, hlen]
    omega
  unfold process_inline
  rw [tokInline_single _ _ r hm hlen2]
  simp only [renderPieces, rendInline, hg, hhttp, Bool.not_true, Bool.false_eq_true,
    if_false, hres]
  simp [List.append_nil]

/-- The definition rewriter on a document that is exactly one titled
reference definition with a remote URL whose resolution succeeds. -/
theorem process_ref_canonical (ctx : PassCtx) (id url title : List Char) (j : Nat)
    (c c' : Cache) (w w' : World) (rel : List Char)
    (hid : id ≠ []) (hidc : ∀ ch ∈ id, ch ≠ ']')
    (hurl : url ≠ []) (hurlc : ∀ ch ∈ url, isPySpace ch = false)
    (htitle : ∀ ch ∈ title, ch ≠ '"') (htne : title ≠ [])
    (htr : refTrailing [] = some j)
    (hj : j = 0)
    (hhttp : is_http_url url = true)
    (hres : resolveUrl ctx url c w = (some rel, c', w')) :
    process_ref ('[' :: (id ++ ']' :: ':' :: ' ' ::
        (url ++ ' ' :: '"' :: (title ++ '"' :: [])))) ctx c w =
      ("[".data ++ id ++ "]: ".data ++ rel ++ " \"".data ++ title ++ "\"".data,
        c', w') := by
  obtain ⟨r, hm, hg, hn⟩ :=
    matchRefDef_canonical id url title [] j hid hidc hurl hurlc htitle htr
  have hlen2 : r.n = ('[' :: (id ++ ']' :: ':' :: ' ' ::
      (url ++ ' ' :: '"' :: (title ++ '"' :: [])))).length := by
    simp [hn, hj]
    omega
  unfold process_ref
  rw [tokRef_single _ _ r hm hlen2]
  simp only [renderPieces, rendRef, hg, hhttp, Bool.not_true, Bool.false_eq_true,
    if_false, hres, htne, ne_eq, not_false_iff, if_true]
  simp [List.append_assoc]

/-- `download` performs between `1` and `maxRetries + 1` `GET`s and
sleeps `0.7 * (i + 1)` seconds after the `i`-th failed attempt. -/
theorem download_attempts (url : List Char) (outDir : List (List Char))
    (net : NetOracle) (mr : Nat) (w : World) :
    ∃ a, 1 ≤ a ∧ a ≤ mr + 1 ∧
      (download url outDir net mr w).2.gets = w.gets ++ List.replicate a url ∧
      (download url outDir net mr w).2.sleeps =
        w.sleeps ++ (List.range (a - 1)).map (fun i => 7 * (i + 1)) := by
  obtain ⟨a, h1, h2, hg, hs⟩ := dlGo_spec url outDir net mr (mr + 1) 0
    { w with calls := w.calls ++ [url] } (by omega)
  refine ⟨a, h1, h2, by simpa [download] using hg, ?_⟩
  show (dlGo url outDir net mr (mr + 1) 0 { w with calls := w.calls ++ [url] }).2.sleeps = _
  rw [hs]
  show w.sleeps ++ _ = w.sleeps ++ _
  refine congrArg _ (List.map_congr_left ?_)
  intro i _
  omega

/-- A `503` on the first attempt and a clean `200` on the second:
the download succeeds and returns the freshly derived path. -/
theorem download_503_200 (url : List Char) (outDir : List (List Char))
    (net : NetOracle) (w : World) (ct0 ct1 : List Char)
    (ch0 ch1 : List (List Nat)) (m0 : Bool)
    (h0 : net url 0 = .resp 503 ct0 ch0 m0)
    (h1 : net url 1 = .resp 200 ct1 ch1 false)
    (he : existsNonempty w (outDir ++ [safe_filename_from_url url (some ct1)]) = false) :
    (download url outDir net 2 w).1 =
      some (outDir ++ [safe_filename_from_url url (some ct1)]) := by
  have he1 : existsNonempty
      { w with
        calls := w.calls ++ [url],
        gets := w.gets ++ [url] ++ [url],
        sleeps := w.sleeps ++ [7 * (0 + 1)] }
      (outDir ++ [safe_filename_from_url url (some ct1)]) = false := by
    simpa [existsNonempty, getFile] using he
  have hlt : (0 : Nat) < 2 := by norm_num
  unfold download
  show (dlGo url outDir net 2 (2 + 1) 0 _).1 = _
  simp only [dlGo, h0, h1, hlt, if_true]
  rw [show retryableStatus 503 = true from rfl]
  simp only [if_true, dlGo, h1]
  rw [show retryableStatus 200 = false from rfl,
    show raisesForStatus 200 = false from rfl]
  simp only [Bool.false_eq_true, if_false, he1]

/-! ## Shape of the inner `src=` substitution -/

theorem findCloseNoNL_split (q : Char) : ∀ (l : List Char) (i : Nat),
    findCloseNoNL q l = some i →
    l = l.take i ++ q :: l.drop (i + 1) ∧ (∀ ch ∈ l.take i, ch ≠ q) := by
  intro l
  induction l with
  | nil => intro i h; simp [findCloseNoNL] at h
  | cons c r ih =>
    intro i h
    unfold findCloseNoNL at h
    by_cases hc : c = q
    · simp only [hc, if_true] at h
      obtain rfl : (0 : Nat) = i := Option.some.inj h
      subst hc
      simp
    · simp only [hc, if_false] at h
      by_cases hn : c = '\n'
      · simp [hn] at h
      · simp only [hn, if_false] at h
        cases hrec : findCloseNoNL q r with
        | none => rw [hrec] at h; simp at h
        | some i' =>
          rw [hrec] at h
          simp only [Option.some.injEq] at h
          subst h
          obtain ⟨hsplit, hfree⟩ := ih i' hrec
          constructor
          · show c :: r = (c :: r).take (i' + 1) ++ q :: (c :: r).drop (i' + 1 + 1)
            simp only [List.take_succ_cons, List.drop_succ_cons]
            rw [List.cons_append]
            exact congrArg (c :: ·) hsplit
          · intro ch hch
            simp only [List.take_succ_cons, List.mem_cons] at hch
            rcases hch with rfl | hch
            · exact hc
            · exact hfree ch hch

theorem startsWithSrcEqExact_shape (l : List Char)
    (h : startsWithSrcEqExact l = true) :
    ∃ r, l = 's' :: 'r' :: 'c' :: '=' :: r := by
  unfold startsWithSrcEqExact at h
  split at h
  · rename_i r heq
    exact ⟨_, rfl⟩
  · exact absurd h (by simp)

/-- A firing candidate decomposes its input as `src=` with some quote
and content; only the quoted value (and quote character) change. -/
theorem innerSrcCand_shape (q : Char) (rel : List Char) (l res : List Char)
    (h : innerSrcCand q rel l = some res) :
    ∃ q2 content post, (q2 = '"' ∨ q2 = '\'') ∧
      l = 's' :: 'r' :: 'c' :: '=' :: q2 :: (content ++ q2 :: post) ∧
      res = 's' :: 'r' :: 'c' :: '=' :: q :: (rel ++ q :: post) := by
  unfold innerSrcCand at h
  split at h
  · rename_i hsw
    obtain ⟨r', hshape⟩ := startsWithSrcEqExact_shape _ hsw
    subst hshape
    simp only [List.drop_succ_cons, List.drop_zero] at h
    split at h
    · rename_i q2 r2
      split at h
      · rename_i hq2
        split at h
        · rename_i tlen hfind
          simp only [Option.some.injEq] at h
          obtain ⟨hsplit, -⟩ := findCloseNoNL_split q2 r2 tlen hfind
          refine ⟨q2, r2.take tlen, r2.drop (tlen + 1), hq2, ?_, ?_⟩
          · exact congrArg (fun x => 's' :: 'r' :: 'c' :: '=' :: q2 :: x) hsplit
          · rw [← h]
            simp [List.append_assoc]
        · exact absurd h (by simp)
      · exact absurd h (by simp)
    · exact absurd h (by simp)
  · exact absurd h (by simp)

/-- If the inner substitution fires, the tag decomposes as a prefix, a
`src=` attribute with some quote and content, and a suffix; only the
quoted value (and the quote character) change in the result. -/
theorem innerSubGo_shape (q : Char) (rel : List Char) :
    ∀ (tag : List Char) (prev : Option Char) (res : List Char),
    innerSubGo q rel tag prev = some res →
    ∃ pre q2 content post, (q2 = '"' ∨ q2 = '\'') ∧
      tag = pre ++ 's' :: 'r' :: 'c' :: '=' :: q2 :: (content ++ q2 :: post) ∧
      res = pre ++ 's' :: 'r' :: 'c' :: '=' :: q :: (rel ++ q :: post) := by
  intro tag
  induction tag with
  | nil => intro prev res h; simp [innerSubGo] at h
  | cons c r ih =>
    intro prev res h
    simp only [innerSubGo] at h
    split at h
    · rename_i res1 hcand
      obtain rfl : res1 = res := Option.some.inj h
      split at hcand
      · obtain ⟨q2, content, post, hq2, htag, hres⟩ :=
          innerSrcCand_shape q rel _ _ hcand
        exact ⟨[], q2, content, post, hq2, by simpa using htag, by simpa using hres⟩
      · exact absurd hcand (by simp)
    · rename_i hcand
      split at h
      · rename_i res2 hrec
        obtain rfl : c :: res2 = res := Option.some.inj h
        obtain ⟨pre, q2, content, post, hq2, htag, hres⟩ := ih (some c) res2 hrec
        exact ⟨c :: pre, q2, content, post, hq2, by rw [List.cons_append, ← htag],
          by rw [List.cons_append, ← hres]⟩
      · exact absurd h (by simp)

/-! # Claims -/

/-! ## C3: the URL classifier and non-remote passthrough -/

/-- C3: `is_http_url` returns true exactly when `urlparse` succeeds
and yields scheme `http` or `https`; a parse failure (`ValueError`,
e.g. an unmatched bracket in the netloc) or any other scheme yields
false — relative paths, `data:`, `mailto:` and anchors included — and
a document all of whose matched references are non-remote passes
through every rewriter byte-identical, with cache and world
untouched. -/
theorem C3_classifier_and_passthrough :
    (∀ (text : List Char) (ctx : PassCtx) (c : Cache) (w : World),
      inlineFree text = true → process_inline text ctx c w = (text, c, w)) ∧
    (∀ (text : List Char) (ctx : PassCtx) (c : Cache) (w : World),
      refFree text = true → process_ref text ctx c w = (text, c, w)) ∧
    (∀ (text : List Char) (ctx : PassCtx) (c : Cache) (w : World),
      htmlFree text = true → process_html text ctx c w = (text, c, w)) ∧
    (∀ s : List Char, is_http_url s = true ↔
      ∃ p, pyUrlparse s = some p ∧
        (p.scheme = "http".data ∨ p.scheme = "https".data)) ∧
    (∀ s : List Char, pyUrlparse s = none → is_http_url s = false) ∧
    is_http_url "images/a.png".data = false ∧
    is_http_url "data:image/png;base64,aGVsbG8=".data = false ∧
    is_http_url "mailto:user@example.com".data = false ∧
    is_http_url "#section-1".data = false ∧
    pyUrlparse "http://[".data = none ∧
    is_http_url "http://[".data = false ∧
    is_http_url "http://example.com/a.png".data = true ∧
    is_http_url "https://example.com/a.png".data = true := by
  refine ⟨process_inline_id, process_ref_id, process_html_id, ?_, ?_,
    by decide, by decide, by decide, by decide, by decide, by decide,
    by decide, by decide⟩
  · intro s
    unfold is_http_url
    cases h : pyUrlparse s with
    | none => simp
    | some p => simp [Bool.or_eq_true, decide_eq_true_eq]
  · intro s h
    unfold is_http_url
    rw [h]

/-- A document whose three image references are all local. -/
def c3Doc : List Char :=
  "![a](images/b.png)\n[r]: assets/c.png\n<img src='d.png'>".data

/-- A context whose network always fails (it must never be reached). -/
def c3Ctx : PassCtx := ⟨["o".data], ["d".data], fun _ _ => .err⟩

/-- An empty world. -/
def c3W : World := ⟨[], [], [], [], [], []⟩

theorem C3_classifier_and_passthrough_witness :
    inlineFree c3Doc = true ∧ process_inline c3Doc c3Ctx [] c3W = (c3Doc, [], c3W) ∧
    refFree c3Doc = true ∧ process_ref c3Doc c3Ctx [] c3W = (c3Doc, [], c3W) ∧
    htmlFree c3Doc = true ∧ process_html c3Doc c3Ctx [] c3W = (c3Doc, [], c3W) ∧
    is_http_url "http://h/a.png".data = true ∧
    is_http_url "http://]".data = false :=
  ⟨by decide, C3_classifier_and_passthrough.1 c3Doc c3Ctx [] c3W (by decide),
   by decide, C3_classifier_and_passthrough.2.1 c3Doc c3Ctx [] c3W (by decide),
   by decide, C3_classifier_and_passthrough.2.2.1 c3Doc c3Ctx [] c3W (by decide),
   (C3_classifier_and_passthrough.2.2.2.1 "http://h/a.png".data).mpr
     ⟨⟨"http".data, "h".data, "/a.png".data⟩, by decide, Or.inl rfl⟩,
   C3_classifier_and_passthrough.2.2.2.2.1 "http://]".data (by decide)⟩

/-! ## C5: retry policy -/

/-- C5: the five listed statuses are the retryable set; a `download`
performs between one and `maxRetries + 1` `GET`s, sleeping
`0.7 * (i + 1)` seconds after the `i`-th failed attempt; exhaustion
returns failure, warns once, and leaves the filesystem untouched; a
`503` then `200` succeeds with the downloaded path; and under a
failing network every rewriter leaves its references unrewritten. -/
theorem C5_retry_policy :
    (retryableStatus 429 = true ∧ retryableStatus 500 = true ∧
      retryableStatus 502 = true ∧ retryableStatus 503 = true ∧
      retryableStatus 504 = true) ∧
    (∀ (url : List Char) (outDir : List (List Char)) (net : NetOracle)
      (mr : Nat) (w : World), ∃ a, 1 ≤ a ∧ a ≤ mr + 1 ∧
      (download url outDir net mr w).2.gets = w.gets ++ List.replicate a url ∧
      (download url outDir net mr w).2.sleeps =
        w.sleeps ++ (List.range (a - 1)).map (fun i => 7 * (i + 1))) ∧
    (∀ (url : List Char) (outDir : List (List Char)) (net : NetOracle)
      (mr : Nat) (w : World), (∀ j, attemptFails (net url j) = true) →
      (download url outDir net mr w).1 = none ∧
      (download url outDir net mr w).2.warns = w.warns ++ [url] ∧
      (download url outDir net mr w).2.files = w.files) ∧
    (∀ (url : List Char) (outDir : List (List Char)) (net : NetOracle) (w : World)
      (ct0 ct1 : List Char) (ch0 ch1 : List (List Nat)) (m0 : Bool),
      net url 0 = .resp 503 ct0 ch0 m0 → net url 1 = .resp 200 ct1 ch1 false →
      existsNonempty w (outDir ++ [safe_filename_from_url url (some ct1)]) = false →
      (download url outDir net 2 w).1 =
        some (outDir ++ [safe_filename_from_url url (some ct1)])) ∧
    (∀ (text : List Char) (ctx : PassCtx) (w : World),
      (∀ u j, attemptFails (ctx.net u j) = true) →
      (process_inline text ctx [] w).1 = text ∧
      (process_ref text ctx [] w).1 = text ∧
      (process_html text ctx [] w).1 = text) := by
  refine ⟨by decide, download_attempts, ?_, ?_, ?_⟩
  · intro url outDir net mr w h
    obtain ⟨h1, h2, h3, -⟩ := download_allfail url outDir net mr w h
    exact ⟨h1, h2, h3⟩
  · intro url outDir net w ct0 ct1 ch0 ch1 m0 h0 h1 he
    exact download_503_200 url outDir net w ct0 ct1 ch0 ch1 m0 h0 h1 he
  · intro text ctx w h
    exact ⟨(process_inline_fail text ctx w h).1, (process_ref_fail text ctx w h).1,
      (process_html_fail text ctx w h).1⟩

/-- The URL of the C5 scenarios. -/
def c5Url : List Char := "http://h/a.png".data

/-- A network that always raises. -/
def c5NetFail : NetOracle := fun _ _ => .err

/-- A network that returns `503` once, then `200`. -/
def c5Net53 : NetOracle := fun _ i =>
  if i = 0 then .resp 503 [] [] false
  else .resp 200 "image/png".data [[1]] false

/-- An empty world for the C5 scenarios. -/
def c5W : World := ⟨[], [], [], [], [], []⟩

/-- A context over the always-failing network. -/
def c5Ctx : PassCtx := ⟨["o".data], ["d".data], c5NetFail⟩

theorem C5_retry_policy_witness :
    (∃ a, 1 ≤ a ∧ a ≤ 2 + 1 ∧
      (download c5Url ["o".data] c5NetFail 2 c5W).2.gets =
        c5W.gets ++ List.replicate a c5Url ∧
      (download c5Url ["o".data] c5NetFail 2 c5W).2.sleeps =
        c5W.sleeps ++ (List.range (a - 1)).map (fun i => 7 * (i + 1))) ∧
    ((download c5Url ["o".data] c5NetFail 2 c5W).1 = none ∧
      (download c5Url ["o".data] c5NetFail 2 c5W).2.warns = c5W.warns ++ [c5Url] ∧
      (download c5Url ["o".data] c5NetFail 2 c5W).2.files = c5W.files) ∧
    ((download c5Url ["o".data] c5Net53 2 c5W).1 =
      some (["o".data] ++ [safe_filename_from_url c5Url (some "image/png".data)])) ∧
    ((process_inline "![x](http://h/a.png)".data c5Ctx [] c5W).1 =
        "![x](http://h/a.png)".data ∧
      (process_ref "![x](http://h/a.png)".data c5Ctx [] c5W).1 =
        "![x](http://h/a.png)".data ∧
      (process_html "![x](http://h/a.png)".data c5Ctx [] c5W).1 =
        "![x](http://h/a.png)".data) :=
  ⟨C5_retry_policy.2.1 c5Url ["o".data] c5NetFail 2 c5W,
   C5_retry_policy.2.2.1 c5Url ["o".data] c5NetFail 2 c5W (fun _ => rfl),
   C5_retry_policy.2.2.2.1 c5Url ["o".data] c5Net53 c5W [] "image/png".data []
     [[1]] false rfl rfl (by decide),
   C5_retry_policy.2.2.2.2 "![x](http://h/a.png)".data c5Ctx c5W (fun _ _ => rfl)⟩

/-! ## C6: the existing-file short-circuit -/

/-- The URL of the C6 scenarios (its basename has an extension, so the
derived target name does not depend on the content type). -/
def c6Url : List Char := "http://h/a.png".data

/-- The derived target path under the output directory `o`. -/
def c6Path : List (List Char) := ["o".data, safe_filename_from_url c6Url none]

/-- A world already holding a non-empty file at the derived path. -/
def c6W : World := ⟨[(c6Path, .bin [9])], [], [], [], [], []⟩

/-- A network with every attempt raising. -/
def c6NetDown : NetOracle := fun _ _ => .err

/-- C6 as stated is false: the derived target exists with non-zero
size, yet with the network failing every attempt the fetcher returns
failure instead of the existing path (the contents do stay intact). -/
theorem C6_cex :
    existsNonempty c6W c6Path = true ∧
    (download c6Url ["o".data] c6NetDown 2 c6W).1 = none ∧
    getFile (download c6Url ["o".data] c6NetDown 2 c6W).2 c6Path =
      some (.bin [9]) := by
  decide

/-- C6 amended: when an attempt's `GET` does return a non-error
status, a pre-existing non-empty file of the derived name
short-circuits the fetch to that path with no write at all; in every
case existing non-empty files keep their contents and all writes land
directly under the destination directory. -/
theorem C6_amended :
    (∀ (url : List Char) (outDir : List (List Char)) (net : NetOracle) (mr : Nat)
      (w : World) (st : Nat) (ct : List Char) (chunks : List (List Nat)) (mid : Bool),
      net url 0 = .resp st ct chunks mid → retryableStatus st = false →
      raisesForStatus st = false →
      existsNonempty w (outDir ++ [safe_filename_from_url url (some ct)]) = true →
      download url outDir net mr w =
        (some (outDir ++ [safe_filename_from_url url (some ct)]),
          { w with calls := w.calls ++ [url], gets := w.gets ++ [url] })) ∧
    (∀ (url : List Char) (outDir : List (List Char)) (net : NetOracle) (mr : Nat)
      (w : World) (p : List (List Char)), existsNonempty w p = true →
      getFile (download url outDir net mr w).2 p = getFile w p) ∧
    (∀ (url : List Char) (outDir : List (List Char)) (net : NetOracle) (mr : Nat)
      (w : World), ∃ l, (download url outDir net mr w).2.writes = w.writes ++ l ∧
      ∀ q ∈ l, ∃ f, q = outDir ++ [f]) :=
  ⟨download_shortcircuit,
   fun url outDir net mr w p hp => (download_frame url outDir net mr w).1.keep p hp,
   fun url outDir net mr w => (download_frame url outDir net mr w).1.writesUnder⟩

/-- A network that answers `200` with a `text/plain` body. -/
def c6OkNet : NetOracle := fun _ _ => .resp 200 "text/plain".data [[5]] false

theorem C6_amended_witness :
    download c6Url ["o".data] c6OkNet 2 c6W =
      (some (["o".data] ++ [safe_filename_from_url c6Url (some "text/plain".data)]),
        { c6W with calls := c6W.calls ++ [c6Url], gets := c6W.gets ++ [c6Url] }) ∧
    getFile (download c6Url ["o".data] c6NetDown 2 c6W).2 c6Path = getFile c6W c6Path :=
  ⟨C6_amended.1 c6Url ["o".data] c6OkNet 2 c6W 200 "text/plain".data [[5]] false
    rfl rfl rfl (by decide),
   C6_amended.2.1 c6Url ["o".data] c6NetDown 2 c6W c6Path (by decide)⟩

/-! ## C9: where the processor writes -/

/-- C9: the processor returns the original path exactly under
`--overwrite` and otherwise the path with `.converted` appended; the
returned path holds the final text; and without `--overwrite` the
original document's contents are unchanged. -/
theorem C9_write_location (mdDir : List (List Char)) (mdName : List Char)
    (outArg : OutDirArg) (overwrite : Bool) (net : NetOracle) (w : World)
    (text : List Char)
    (hread : getFile w (mdDir ++ [mdName]) = some (.text text)) :
    (process_md_file mdDir mdName outArg overwrite net w).1 =
      some (if overwrite then mdDir ++ [mdName]
        else mdDir ++ [mdName ++ ".converted".data]) ∧
    (∃ t3, getFile (process_md_file mdDir mdName outArg overwrite net w).2
      (if overwrite then mdDir ++ [mdName]
        else mdDir ++ [mdName ++ ".converted".data]) = some (.text t3)) ∧
    (overwrite = false →
      getFile (process_md_file mdDir mdName outArg overwrite net w).2
        (mdDir ++ [mdName]) = some (.text text)) :=
  process_md_file_spec mdDir mdName outArg overwrite net w text hread

/-- The C9 scenario world: one document containing a remote image, and
a network that succeeds, so the run also exercises an asset write. -/
def c9W : World :=
  ⟨[(["d".data, "m.md".data], .text "![a](http://h/p.png)".data)], [], [], [], [], []⟩

/-- The C9 network. -/
def c9Net : NetOracle := fun _ _ => .resp 200 "image/png".data [[3, 4]] false

theorem C9_write_location_witness :
    (process_md_file ["d".data] "m.md".data (.rel ["images".data]) false c9Net c9W).1 =
      some (if false then ["d".data] ++ ["m.md".data]
        else ["d".data] ++ ["m.md".data ++ ".converted".data]) ∧
    (∃ t3, getFile
      (process_md_file ["d".data] "m.md".data (.rel ["images".data]) false c9Net c9W).2
      (if false then ["d".data] ++ ["m.md".data]
        else ["d".data] ++ ["m.md".data ++ ".converted".data]) = some (.text t3)) ∧
    (false = false →
      getFile
        (process_md_file ["d".data] "m.md".data (.rel ["images".data]) false c9Net c9W).2
        (["d".data] ++ ["m.md".data]) = some (.text "![a](http://h/p.png)".data)) :=
  C9_write_location ["d".data] "m.md".data (.rel ["images".data]) false c9Net c9W
    "![a](http://h/p.png)".data (by decide)

/-! ## C10: partial files survive and satisfy later fetches -/

/-- C10: a mid-stream failure leaves the partial bytes on disk; the
very next retry attempt inside the same call sees a non-empty file of
the derived name and returns it as already fetched — the partial
content, not the second response's body, is what remains — and any
later `download` of the same URL whose first attempt gets a non-error
status short-circuits to the same partial file without rewriting it. -/
theorem C10_partial_not_rolled_back (url : List Char) (outDir : List (List Char))
    (net : NetOracle) (w : World) (st0 st1 : Nat) (ct0 ct1 : List Char)
    (ch0 ch1 : List (List Nat)) (m1 : Bool)
    (h0 : net url 0 = .resp st0 ct0 ch0 true)
    (hr0 : retryableStatus st0 = false) (hs0 : raisesForStatus st0 = false)
    (h1 : net url 1 = .resp st1 ct1 ch1 m1)
    (hr1 : retryableStatus st1 = false) (hs1 : raisesForStatus st1 = false)
    (hfn : safe_filename_from_url url (some ct1) = safe_filename_from_url url (some ct0))
    (he : existsNonempty w (outDir ++ [safe_filename_from_url url (some ct0)]) = false)
    (hch : (ch0.filter (· ≠ [])).flatten ≠ []) :
    (download url outDir net 2 w).1 =
      some (outDir ++ [safe_filename_from_url url (some ct0)]) ∧
    getFile (download url outDir net 2 w).2
        (outDir ++ [safe_filename_from_url url (some ct0)]) =
      some (.bin (ch0.filter (· ≠ [])).flatten) ∧
    (download url outDir net 2 w).2.gets = w.gets ++ [url, url] ∧
    (∀ (net2 : NetOracle) (mr2 st2 : Nat) (ct2 : List Char)
      (ch2 : List (List Nat)) (mid2 : Bool),
      net2 url 0 = .resp st2 ct2 ch2 mid2 → retryableStatus st2 = false →
      raisesForStatus st2 = false →
      safe_filename_from_url url (some ct2) = safe_filename_from_url url (some ct0) →
      download url outDir net2 mr2 (download url outDir net 2 w).2 =
        (some (outDir ++ [safe_filename_from_url url (some ct0)]),
          { (download url outDir net 2 w).2 with
            calls := (download url outDir net 2 w).2.calls ++ [url],
            gets := (download url outDir net 2 w).2.gets ++ [url] })) := by
  obtain ⟨p1, p2, p3⟩ := download_partial_kept url outDir net w st0 st1 ct0 ct1
    ch0 ch1 m1 h0 hr0 hs0 h1 hr1 hs1 hfn he hch
  refine ⟨p1, p2, p3, ?_⟩
  intro net2 mr2 st2 ct2 ch2 mid2 h20 hr2 hs2 hfn2
  have he2 : existsNonempty (download url outDir net 2 w).2
      (outDir ++ [safe_filename_from_url url (some ct2)]) = true := by
    rw [hfn2]
    simp only [existsNonempty, p2, fsize]
    have := List.length_pos.mpr hch
    simpa using this
  have := download_shortcircuit url outDir net2 mr2 (download url outDir net 2 w).2
    st2 ct2 ch2 mid2 h20 hr2 hs2 he2
  rw [hfn2] at this
  exact this

/-- The C10 network: mid-stream error on the first attempt, clean body
on the second. -/
def c10Net : NetOracle := fun _ i =>
  if i = 0 then .resp 200 "image/png".data [[1, 2]] true
  else .resp 200 "image/png".data [[9, 9, 9]] false

/-- A later-call network that succeeds immediately. -/
def c10Net2 : NetOracle := fun _ _ => .resp 200 "image/png".data [[7]] false

/-- An empty world for the C10 scenario. -/
def c10W : World := ⟨[], [], [], [], [], []⟩

/-- The C10 URL. -/
def c10Url : List Char := "http://h/b.png".data

theorem C10_partial_not_rolled_back_witness :
    (download c10Url ["o".data] c10Net 2 c10W).1 =
      some (["o".data] ++ [safe_filename_from_url c10Url (some "image/png".data)]) ∧
    getFile (download c10Url ["o".data] c10Net 2 c10W).2
        (["o".data] ++ [safe_filename_from_url c10Url (some "image/png".data)]) =
      some (.bin ([[1, 2]].filter (· ≠ [])).flatten) ∧
    (download c10Url ["o".data] c10Net 2 c10W).2.gets =
      c10W.gets ++ [c10Url, c10Url] ∧
    download c10Url ["o".data] c10Net2 5 (download c10Url ["o".data] c10Net 2 c10W).2 =
      (some (["o".data] ++ [safe_filename_from_url c10Url (some "image/png".data)]),
        { (download c10Url ["o".data] c10Net 2 c10W).2 with
          calls := (download c10Url ["o".data] c10Net 2 c10W).2.calls ++ [c10Url],
          gets := (download c10Url ["o".data] c10Net 2 c10W).2.gets ++ [c10Url] }) := by
  obtain ⟨p1, p2, p3, p4⟩ := C10_partial_not_rolled_back c10Url ["o".data] c10Net
    c10W 200 200 "image/png".data "image/png".data [[1, 2]] [[9, 9, 9]] false
    rfl rfl rfl rfl rfl rfl rfl (by decide) (by decide)
  exact ⟨p1, p2, p3, p4 c10Net2 5 200 "image/png".data [[7]] false rfl rfl rfl rfl⟩

/-! ## C1: idempotence of a second overwrite run -/

/-- The C1 document: one remote inline image whose percent-encoded
path decodes to a name beginning `http:`. -/
def c1Doc : List Char := "![a](https://host/http%3Afoo)".data

/-- The C1 starting world: just the document. -/
def c1W : World := ⟨[(["d".data, "m.md".data], .text c1Doc)], [], [], [], [], []⟩

/-- The C1 network: every attempt succeeds with a 3-byte PNG body. -/
def c1Net : NetOracle := fun _ _ => .resp 200 "image/png".data [[1, 2, 3]] false

/-- The world after the first overwrite run. -/
def c1W1 : World :=
  (process_md_file ["d".data] "m.md".data (.rel [".".data]) true c1Net c1W).2

/-- The world after the second overwrite run. -/
def c1W2 : World :=
  (process_md_file ["d".data] "m.md".data (.rel [".".data]) true c1Net c1W1).2

/-- C1 as stated is false: the first run is fully successful (no
warning, one fetch, the asset written non-empty, the document
rewritten), yet its output filename `http:foo_b2233c4b6a.png` itself
parses with scheme `http`, so the second run fetches again (two
invocations in total) and produces different text. -/
theorem C1_cex :
    c1W1.warns = [] ∧
    c1W1.calls.length = 1 ∧
    getFile c1W1 ["d".data, "m.md".data] =
      some (.text "![a](http:foo_b2233c4b6a.png)".data) ∧
    existsNonempty c1W1 ["d".data, "http:foo_b2233c4b6a.png".data] = true ∧
    is_http_url "http:foo_b2233c4b6a.png".data = true ∧
    c1W2.calls.length = 2 ∧
    getFile c1W2 ["d".data, "m.md".data] ≠ getFile c1W1 ["d".data, "m.md".data] := by
  decide

/-- C1 amended: an overwrite run over a document whose text is free of
remote inline images, remote reference definitions and remote `<img>`
tags rewrites nothing — it returns the document path, stores the same
text back, and performs no fetch, `GET`, file change or warning.  (The
original claim fails because a successful first run can emit a local
filename that itself parses as a remote URL.) -/
theorem C1_amended (mdDir : List (List Char)) (mdName : List Char)
    (outArg : OutDirArg) (net : NetOracle) (w : World) (t : List Char)
    (hread : getFile w (mdDir ++ [mdName]) = some (.text t))
    (h1 : inlineFree t = true) (h2 : refFree t = true) (h3 : htmlFree t = true) :
    (process_md_file mdDir mdName outArg true net w).1 = some (mdDir ++ [mdName]) ∧
    getFile (process_md_file mdDir mdName outArg true net w).2 (mdDir ++ [mdName]) =
      some (.text t) ∧
    (process_md_file mdDir mdName outArg true net w).2.files = w.files ∧
    (process_md_file mdDir mdName outArg true net w).2.gets = w.gets ∧
    (process_md_file mdDir mdName outArg true net w).2.calls = w.calls ∧
    (process_md_file mdDir mdName outArg true net w).2.warns = w.warns := by
  obtain ⟨he, hf, hg, hc, hwn⟩ :=
    process_md_file_identity mdDir mdName outArg net w t hread h1 h2 h3
  rw [he]
  exact ⟨rfl, getFile_setFile_same _ _ _, hf, hg, hc, hwn⟩

/-- A document with only local references in all three syntaxes. -/
def c1ADoc : List Char := "![a](x.png) [r]: y.png <img src='z.png'>".data

/-- The C1 witness world. -/
def c1AW : World := ⟨[(["d".data, "n.md".data], .text c1ADoc)], [], [], [], [], []⟩

theorem C1_amended_witness :
    (process_md_file ["d".data] "n.md".data (.rel ["images".data]) true
        (fun _ _ => .err) c1AW).1 = some (["d".data] ++ ["n.md".data]) ∧
    getFile (process_md_file ["d".data] "n.md".data (.rel ["images".data]) true
        (fun _ _ => .err) c1AW).2 (["d".data] ++ ["n.md".data]) =
      some (.text c1ADoc) ∧
    (process_md_file ["d".data] "n.md".data (.rel ["images".data]) true
        (fun _ _ => .err) c1AW).2.files = c1AW.files ∧
    (process_md_file ["d".data] "n.md".data (.rel ["images".data]) true
        (fun _ _ => .err) c1AW).2.gets = c1AW.gets ∧
    (process_md_file ["d".data] "n.md".data (.rel ["images".data]) true
        (fun _ _ => .err) c1AW).2.calls = c1AW.calls ∧
    (process_md_file ["d".data] "n.md".data (.rel ["images".data]) true
        (fun _ _ => .err) c1AW).2.warns = c1AW.warns :=
  C1_amended ["d".data] "n.md".data (.rel ["images".data]) (fun _ _ => .err) c1AW
    c1ADoc (by decide) (by decide) (by decide) (by decide)

/-! ## C2: one fetch per URL within a document pass -/

/-- The C2 URL, occurring once inline and once in an `<img>` tag. -/
def c2Url : List Char := "http://h/a.png".data

/-- The C2 document. -/
def c2Doc : List Char :=
  "![a](http://h/a.png) <img src=\"http://h/a.png\">".data

/-- The C2 starting world. -/
def c2W : World := ⟨[(["d".data, "m.md".data], .text c2Doc)], [], [], [], [], []⟩

/-- A network on which every attempt raises. -/
def c2NetFail : NetOracle := fun _ _ => .err

/-- A network on which every attempt succeeds. -/
def c2NetOk : NetOracle := fun _ _ => .resp 200 "image/png".data [[1]] false

/-- C2 as stated is false: a failed resolution is not cached, so when
every attempt of every fetch fails, the one URL — occurring inline and
in an `<img>` tag — is fetched once per occurrence: two `download`
invocations in a single document pass, not at most one. -/
theorem C2_cex :
    (process_md_file ["d".data] "m.md".data (.rel ["o".data]) true c2NetFail
        c2W).2.calls = [c2Url, c2Url] ∧
    ¬((process_md_file ["d".data] "m.md".data (.rel ["o".data]) true c2NetFail
        c2W).2.calls.length ≤ 1) := by
  decide

/-- C2 amended: a cached URL is substituted without any fetch, a cache
miss whose download succeeds fetches once and caches the computed
relative path, and on the C2 document with a working network the whole
run performs exactly one `download` invocation and rewrites both
occurrences to the same local relative path. -/
theorem C2_amended :
    (∀ (ctx : PassCtx) (url : List Char) (c : Cache) (w : World) (rel : List Char),
      cacheLookup c url = some rel → resolveUrl ctx url c w = (some rel, c, w)) ∧
    (∀ (ctx : PassCtx) (url : List Char) (c : Cache) (w w' : World)
      (saved : List (List Char)),
      cacheLookup c url = none →
      download url ctx.outDir ctx.net 2 w = (some saved, w') →
      resolveUrl ctx url c w = (some (relpathComps saved ctx.base),
        c ++ [(url, relpathComps saved ctx.base)], w')) ∧
    (process_md_file ["d".data] "m.md".data (.rel ["o".data]) true c2NetOk
        c2W).2.calls = [c2Url] ∧
    getFile (process_md_file ["d".data] "m.md".data (.rel ["o".data]) true c2NetOk
        c2W).2 (["d".data] ++ ["m.md".data]) =
      some (.text "![a](o/a_5f1269ece0.png) <img src=\"o/a_5f1269ece0.png\">".data) :=
  ⟨resolveUrl_cached, resolveUrl_miss, by decide, by decide⟩

/-- An empty world for the C2 witness. -/
def c2WEmpty : World := ⟨[], [], [], [], [], []⟩

/-- The C2 witness context over the failing network (never reached on
a cache hit). -/
def c2Ctx : PassCtx := ⟨["d".data, "o".data], ["d".data], c2NetFail⟩

/-- The C2 witness context over the working network. -/
def c2CtxOk : PassCtx := ⟨["d".data, "o".data], ["d".data], c2NetOk⟩

/-- The path the C2 witness download saves to. -/
def c2Saved : List (List Char) :=
  ["d".data, "o".data, safe_filename_from_url c2Url (some "image/png".data)]

theorem C2_amended_witness :
    resolveUrl c2Ctx c2Url [(c2Url, "p.png".data)] c2WEmpty =
      (some "p.png".data, [(c2Url, "p.png".data)], c2WEmpty) ∧
    resolveUrl c2CtxOk c2Url [] c2WEmpty =
      (some (relpathComps c2Saved c2CtxOk.base),
        [] ++ [(c2Url, relpathComps c2Saved c2CtxOk.base)],
        (download c2Url c2CtxOk.outDir c2CtxOk.net 2 c2WEmpty).2) :=
  ⟨C2_amended.1 c2Ctx c2Url [(c2Url, "p.png".data)] c2WEmpty "p.png".data rfl,
   C2_amended.2.1 c2CtxOk c2Url [] c2WEmpty
     (download c2Url c2CtxOk.outDir c2CtxOk.net 2 c2WEmpty).2 c2Saved rfl (by decide)⟩

/-! ## C7: Markdown syntax around the URL is preserved -/

/-- The C7 URL. -/
def c7Url : List Char := "http://h/i.png".data

/-- The C7 counterexample document: an inline image carrying an
explicit empty title. -/
def c7Doc : List Char := "![a](http://h/i.png \"\")".data

/-- The C7 network: every attempt succeeds. -/
def c7Net : NetOracle := fun _ _ => .resp 200 "image/png".data [[1]] false

/-- The C7 pass context (output directory equal to the base). -/
def c7Ctx : PassCtx := ⟨["d".data], ["d".data], c7Net⟩

/-- An empty world for the C7 scenarios. -/
def c7W : World := ⟨[], [], [], [], [], []⟩

/-- A reference-style document: a body usage plus a titled definition. -/
def c7RefDoc : List Char :=
  "![Logo][logo]\n[logo]: http://h/a.png \"Logo\"".data

/-- C7 as stated is false: an inline image with a present-but-empty
title (`""`) is rewritten with the title dropped entirely (the
rewriter tests the title for truthiness, and an empty string is
falsy), not with the original title preserved. -/
theorem C7_cex :
    (process_inline c7Doc c7Ctx [] c7W).1 = "![a](i_b596f05634.png)".data ∧
    (process_inline c7Doc c7Ctx [] c7W).1 ≠ "![a](i_b596f05634.png \"\")".data := by
  decide

/-- C7 amended: on a canonical inline image whose resolution succeeds
the rewriter re-emits the match with only the URL replaced — alt
preserved, a non-empty title preserved, an empty or missing title
dropped; on a canonical non-empty-titled reference definition the id
and title are preserved around the new path; and on a document holding
a body usage `![Logo][logo]` plus a titled definition, the definition
pass rewrites only the definition line, leaving the usage untouched. -/
theorem C7_amended :
    (∀ (ctx : PassCtx) (alt url tail : List Char) (res : Option (List Char) × Nat)
      (c c' : Cache) (w w' : World) (rel : List Char),
      (∀ ch ∈ alt, ch ≠ ']') → (∀ ch ∈ url, isPySpace ch = false ∧ ch ≠ ')') →
      inlineCont tail = some res → url ≠ [] → res.2 = tail.length →
      is_http_url url = true → resolveUrl ctx url c w = (some rel, c', w') →
      process_inline ('!' :: '[' :: (alt ++ ']' :: '(' :: (url ++ tail))) ctx c w =
        ("![".data ++ alt ++ "](".data ++ rel ++
          (match res.1 with
           | some t => if t ≠ [] then " \"".data ++ t ++ "\"".data else []
           | none => []) ++ ")".data, c', w')) ∧
    (∀ (ctx : PassCtx) (id url title : List Char) (j : Nat) (c c' : Cache)
      (w w' : World) (rel : List Char),
      id ≠ [] → (∀ ch ∈ id, ch ≠ ']') → url ≠ [] →
      (∀ ch ∈ url, isPySpace ch = false) → (∀ ch ∈ title, ch ≠ '"') → title ≠ [] →
      refTrailing [] = some j → j = 0 → is_http_url url = true →
      resolveUrl ctx url c w = (some rel, c', w') →
      process_ref ('[' :: (id ++ ']' :: ':' :: ' ' ::
          (url ++ ' ' :: '"' :: (title ++ '"' :: [])))) ctx c w =
        ("[".data ++ id ++ "]: ".data ++ rel ++ " \"".data ++ title ++ "\"".data,
          c', w')) ∧
    (process_ref c7RefDoc c7Ctx [] c7W).1 =
      "![Logo][logo]\n[logo]: a_5f1269ece0.png \"Logo\"".data :=
  ⟨fun ctx alt url tail res c c' w w' rel halt hchars hcont hne hlen hhttp hres =>
     process_inline_canonical ctx alt url tail res c c' w w' rel
       halt hchars hcont hne hlen hhttp hres,
   fun ctx id url title j c c' w w' rel hid hidc hurl hurlc htitle htne htr hj
       hhttp hres =>
     process_ref_canonical ctx id url title j c c' w w' rel
       hid hidc hurl hurlc htitle htne htr hj hhttp hres,
   by decide⟩

theorem C7_amended_witness :
    process_inline ('!' :: '[' :: ("a".data ++ ']' :: '(' :: (c7Url ++ ")".data)))
        c7Ctx [(c7Url, "p.png".data)] c7W =
      ("![".data ++ "a".data ++ "](".data ++ "p.png".data ++ ")".data,
        [(c7Url, "p.png".data)], c7W) ∧
    process_ref ('[' :: ("logo".data ++ ']' :: ':' :: ' ' ::
        ("http://h/a.png".data ++ ' ' :: '"' :: ("T".data ++ '"' :: [])))) c7Ctx
        [("http://h/a.png".data, "q.png".data)] c7W =
      ("[".data ++ "logo".data ++ "]: ".data ++ "q.png".data ++ " \"".data ++
        "T".data ++ "\"".data, [("http://h/a.png".data, "q.png".data)], c7W) :=
  ⟨C7_amended.1 c7Ctx "a".data c7Url ")".data (none, 1)
     [(c7Url, "p.png".data)] [(c7Url, "p.png".data)] c7W c7W "p.png".data
     (by decide) (by decide) (by decide) (by decide) rfl (by decide) (by decide),
   C7_amended.2.1 c7Ctx "logo".data "http://h/a.png".data "T".data 0
     [("http://h/a.png".data, "q.png".data)] [("http://h/a.png".data, "q.png".data)]
     c7W c7W "q.png".data (by decide) (by decide) (by decide) (by decide)
     (by decide) (by decide) rfl rfl (by decide) (by decide)⟩

/-! ## C4: filename derivation -/

/-- C4 as stated is false: the fingerprint keeps only 10 hex digits of
the digest, so among the infinitely many URLs `http://h/a.png?bb…b` —
pairwise distinct, all parsing successfully with basename `a.png` —
two distinct ones must produce the very same filename. -/
theorem C4_cex : ∃ u1 u2 : List Char, u1 ≠ u2 ∧
    (∃ p1 p2, pyUrlparse u1 = some p1 ∧ pyUrlparse u2 = some p2 ∧
      pyBasename (pyUnquote p1.path) = pyBasename (pyUnquote p2.path)) ∧
    safe_filename_from_url u1 none = safe_filename_from_url u2 none := by
  obtain ⟨n, m, hnm, heq⟩ := filename_collision
  exact ⟨urlN n, urlN m, fun h => hnm (urlN_injective h),
    ⟨_, _, urlN_parse n, urlN_parse m, rfl⟩, heq⟩

/-- C4 amended: the derivation is a pure function of URL and content
type of the form `stem ++ "_" ++ fingerprint ++ ext`, the fingerprint
being the 10-character truncation of the URL's hex digest; the stem
defaults to `image` on an empty basename; a missing extension is
guessed from the content type's primary token, falling back to `.bin`;
and two URLs with equal stems but different truncated fingerprints get
distinct filenames — but distinctness is only guaranteed up to
fingerprint collisions, which the 10-character truncation admits. -/
theorem C4_amended :
    (∀ (u1 u2 : List Char) (ct1 ct2 : Option (List Char)), u1 = u2 → ct1 = ct2 →
      safe_filename_from_url u1 ct1 = safe_filename_from_url u2 ct2) ∧
    (∀ (url : List Char) (ct : Option (List Char)),
      safe_filename_from_url url ct =
        (filenameStemExt url).1 ++ "_".data ++ urlFingerprint url ++
          filenameExt url ct) ∧
    (∀ url : List Char, (urlFingerprint url).length = 10 ∧
      urlFingerprint url = (sha1HexList (utf8Bytes url)).take 10) ∧
    (∀ url : List Char, pyBasename (pyUnquote (pyUrlparts url).path) = [] →
      (filenameStemExt url).1 = "image".data) ∧
    (∀ (url ct e : List Char), (filenameStemExt url).2 = [] → ct ≠ [] → e ≠ [] →
      pyGuessExtension (pyStrip (beforeSemi ct)) = some e →
      filenameExt url (some ct) = e) ∧
    (∀ url : List Char, (filenameStemExt url).2 = [] →
      filenameExt url none = ".bin".data) ∧
    (∀ (u1 u2 : List Char) (ct1 ct2 : Option (List Char)),
      (filenameStemExt u1).1 = (filenameStemExt u2).1 →
      urlFingerprint u1 ≠ urlFingerprint u2 →
      safe_filename_from_url u1 ct1 ≠ safe_filename_from_url u2 ct2) := by
  refine ⟨?_, fun url ct => rfl, fun url => ⟨urlFingerprint_length url, rfl⟩,
    ?_, ?_, ?_, safe_filename_ne_of_fp_ne⟩
  · intro u1 u2 ct1 ct2 h1 h2
    subst h1
    subst h2
    rfl
  · intro url h
    simp only [filenameStemExt]
    rw [h]
    decide
  · intro url ct e h hct he hg
    have ht : strTruthy (some ct) = true := by simpa [strTruthy] using hct
    simp [filenameExt, h, ht, hg, he]
  · intro url h
    simp [filenameExt, h, strTruthy]

theorem C4_amended_witness :
    safe_filename_from_url "http://h/a.png".data (some "image/png".data) =
      safe_filename_from_url "http://h/a.png".data (some "image/png".data) ∧
    (filenameStemExt "http://h/".data).1 = "image".data ∧
    filenameExt "http://h/x".data (some "image/png".data) = ".png".data ∧
    filenameExt "http://h/x".data none = ".bin".data ∧
    safe_filename_from_url "http://h/a.png".data none ≠
      safe_filename_from_url "http://h/x/a.png".data (some "image/png".data) :=
  ⟨C4_amended.1 "http://h/a.png".data "http://h/a.png".data
     (some "image/png".data) (some "image/png".data) rfl rfl,
   C4_amended.2.2.2.1 "http://h/".data (by decide),
   C4_amended.2.2.2.2.1 "http://h/x".data "image/png".data ".png".data
     (by decide) (by decide) (by decide) (by decide),
   C4_amended.2.2.2.2.2.1 "http://h/x".data (by decide),
   C4_amended.2.2.2.2.2.2 "http://h/a.png".data "http://h/x/a.png".data none
     (some "image/png".data) (by decide) (by decide)⟩

/-! ## C8: the `<img>` rewrite touches only the `src` value -/

/-- The C8 network: every attempt succeeds with a JPEG body. -/
def c8Net : NetOracle := fun _ _ => .resp 200 "image/jpeg".data [[1]] false

/-- The C8 pass context (output directory equal to the base). -/
def c8Ctx : PassCtx := ⟨["d".data], ["d".data], c8Net⟩

/-- An empty world for the C8 scenarios. -/
def c8W : World := ⟨[], [], [], [], [], []⟩

/-- An uppercase tag: `HTML_IMG` matches it case-insensitively, but the
inner substitution pattern is case-sensitive. -/
def c8Doc : List Char := "<IMG SRC=\"http://h/a.jpg\">".data

/-- The C8 single-quoted scenario tag from the spec. -/
def c8Doc2 : List Char := "<img src='http://h/a.jpg' alt=\"x\">".data

/-- C8 as stated is false: `<IMG SRC="…">` is matched (the outer regex
is case-insensitive) and its remote source is fetched — one `download`
invocation — yet the inner substitution looks for lowercase `src=`
only, so nothing in the tag is replaced at all. -/
theorem C8_cex :
    (process_html c8Doc c8Ctx [] c8W).1 = c8Doc ∧
    (process_html c8Doc c8Ctx [] c8W).2.2.calls = ["http://h/a.jpg".data] ∧
    is_http_url "http://h/a.jpg".data = true ∧
    (process_html c8Doc c8Ctx [] c8W).1 ≠ "<IMG SRC=\"a_86abfe8c91.jpg\">".data := by
  decide

/-- C8 amended: whenever the inner scan fires, the tag decomposes as
`pre ++ src= ++ quote ++ value ++ quote ++ post` with a lowercase
`src=` and a same-line closing quote, and the output is exactly
`pre ++ src= ++ q ++ rel ++ q ++ post` — everything but the quoted
value and its quote character (replaced by the outer match's quote) is
preserved verbatim; a matched tag with a remote source and successful
resolution is rewritten by that scan; and the spec's single-quoted
scenario keeps its quotes and `alt` attribute. -/
theorem C8_amended :
    (∀ (q : Char) (rel tag res : List Char), innerSubGo q rel tag none = some res →
      innerSrcSub tag q rel = res ∧
      ∃ pre q2 content post, (q2 = '"' ∨ q2 = '\'') ∧
        tag = pre ++ 's' :: 'r' :: 'c' :: '=' :: q2 :: (content ++ q2 :: post) ∧
        res = pre ++ 's' :: 'r' :: 'c' :: '=' :: q :: (rel ++ q :: post)) ∧
    (∀ (ctx : PassCtx) (raw : List Char) (g : HtmlG) (c c' : Cache) (w w' : World)
      (rel : List Char),
      is_http_url g.src = true → resolveUrl ctx g.src c w = (some rel, c', w') →
      rendHtml ctx raw g c w = (innerSrcSub raw g.q rel, c', w')) ∧
    (process_html c8Doc2 c8Ctx [] c8W).1 =
      "<img src='a_86abfe8c91.jpg' alt=\"x\">".data := by
  refine ⟨?_, ?_, by decide⟩
  · intro q rel tag res h
    exact ⟨by simp [innerSrcSub, h], innerSubGo_shape q rel tag none res h⟩
  · intro ctx raw g c c' w w' rel hhttp hres
    simp only [rendHtml, hhttp, Bool.not_true, Bool.false_eq_true, if_false, hres]

theorem C8_amended_witness :
    (innerSrcSub "<img src=\"u\">".data '\'' "r.jpg".data =
        "<img src='r.jpg'>".data ∧
      ∃ pre q2 content post, (q2 = '"' ∨ q2 = '\'') ∧
        "<img src=\"u\">".data =
          pre ++ 's' :: 'r' :: 'c' :: '=' :: q2 :: (content ++ q2 :: post) ∧
        "<img src='r.jpg'>".data =
          pre ++ 's' :: 'r' :: 'c' :: '=' :: '\'' :: ("r.jpg".data ++ '\'' :: post)) ∧
    rendHtml c8Ctx c8Doc2 ⟨'\'', "http://h/a.jpg".data⟩
        [("http://h/a.jpg".data, "r.jpg".data)] c8W =
      (innerSrcSub c8Doc2 '\'' "r.jpg".data,
        [("http://h/a.jpg".data, "r.jpg".data)], c8W) :=
  ⟨C8_amended.1 '\'' "r.jpg".data "<img src=\"u\">".data "<img src='r.jpg'>".data
     (by decide),
   C8_amended.2.1 c8Ctx c8Doc2 ⟨'\'', "http://h/a.jpg".data⟩
     [("http://h/a.jpg".data, "r.jpg".data)] [("http://h/a.jpg".data, "r.jpg".data)]
     c8W c8W "r.jpg".data (by decide) (by decide)⟩

end MdFetch
